import Mathlib

/-!
Verification of the Bencode codec implemented in `src/script.py` and
`src/main.py`.

Byte strings are modelled as `List Nat` (one entry per byte).  Python's
dynamically typed values are modelled by explicit sum types, Python
exceptions by `Except` with an error enumeration, and the unbounded
`while` loops of the decoder by a fuel parameter together with lemmas
showing that the chosen fuel is always sufficient.
-/

/-- Byte values that Python's `int()` parser for `bytes` treats as ASCII
whitespace and strips from both ends: space, tab, LF, VT, FF, CR. -/
def isPySpace (b : Nat) : Bool :=
  b == 32 || b == 9 || b == 10 || b == 11 || b == 12 || b == 13

/-- ASCII decimal digit bytes `'0'..'9'` (48..57). -/
def isAsciiDigit (b : Nat) : Bool :=
  decide (48 ≤ b ∧ b ≤ 57)

/-- Models `chr(b).isdigit()` for a byte value `b` in 0..255: `chr` maps the
byte to the Unicode code point with that number, and `str.isdigit` holds on
that range exactly for the ASCII digits and for the superscript digit
characters U+00B2, U+00B3 and U+00B9 (178, 179, 185).  This is the dispatch
test used by `decode_bencode` (`src/script.py` line 56, `src/main.py`
line 8). -/
def pyIsDigit (b : Nat) : Bool :=
  isAsciiDigit b || b == 178 || b == 179 || b == 185

/-- Tail of the digit run accepted by Python's `int()` after at least one
digit has been consumed (`acc` is the value of the digits consumed so far):
each further character is either a digit or a single underscore that must be
immediately followed by a digit. -/
def digitTail : List Nat → Nat → Option Nat
  | [], acc => some acc
  | b :: bs, acc =>
    if isAsciiDigit b then digitTail bs (10 * acc + (b - 48))
    else if b = 95 then
      match bs with
      | b' :: bs' =>
        if isAsciiDigit b' then digitTail bs' (10 * acc + (b' - 48)) else none
      | [] => none
    else none

/-- Digit run accepted by Python's `int()`: at least one ASCII digit, with
single underscores permitted between digits (PEP 515), evaluated in base
10. -/
def parseUDigits : List Nat → Option Nat
  | [] => none
  | b :: bs => if isAsciiDigit b then digitTail bs (b - 48) else none

/-- Strip ASCII whitespace from both ends of a byte sequence, as Python's
`int()` does before parsing. -/
def stripWs (l : List Nat) : List Nat :=
  ((l.dropWhile isPySpace).reverse.dropWhile isPySpace).reverse

/-- Model of Python's `int(b)` for a `bytes` value `b` (base 10): strip
ASCII whitespace from both ends, accept one optional `+` (43) or `-` (45)
sign, then require a nonempty underscore-separated digit run; `none` models
the `ValueError` raised on any other input.  This is the parser invoked by
`_decode_string` (`src/script.py` line 74) and `_decode_integer`
(`src/script.py` line 90) and by the corresponding inline code in
`src/main.py` (lines 12 and 23). -/
def pyIntParse (s : List Nat) : Option Int :=
  match stripWs s with
  | [] => none
  | b :: r =>
    if b = 43 then (parseUDigits r).map (fun n => (n : Int))
    else if b = 45 then (parseUDigits r).map (fun n => -(n : Int))
    else (parseUDigits (b :: r)).map (fun n => (n : Int))

/-- Functional rendering of Python's `haystack.find(c)` followed by slicing
at the found index: `splitOnFirst c bs = some (p, q)` splits `bs` as
`p ++ c :: q` at the first occurrence of `c`, and is `none` when `c` does
not occur (Python's `find` returning `-1`). -/
def splitOnFirst (c : Nat) : List Nat → Option (List Nat × List Nat)
  | [] => none
  | b :: bs =>
    if b = c then some ([], bs)
    else
      match splitOnFirst c bs with
      | some (p, q) => some (b :: p, q)
      | none => none

/-- Little-endian base-10 digits of `n`, computed with explicit fuel so
that the definition is structurally recursive (and hence reduces inside
the kernel); `natDigitsAux n n` agrees with Mathlib's `Nat.digits 10 n`
by `natDigitsAux_eq_digits`. -/
def natDigitsAux : Nat → Nat → List Nat
  | 0, _ => []
  | _ + 1, 0 => []
  | f + 1, n + 1 => ((n + 1) % 10) :: natDigitsAux f ((n + 1) / 10)

theorem natDigitsAux_eq_digits : ∀ f n, n ≤ f → natDigitsAux f n = Nat.digits 10 n := by
  intro f
  induction f with
  | zero =>
    intro n hn
    have : n = 0 := Nat.le_zero.mp hn
    subst this
    simp [natDigitsAux]
  | succ f ih =>
    intro n hn
    cases n with
    | zero => simp [natDigitsAux]
    | succ m =>
      rw [natDigitsAux]
      rw [Nat.digits_def' (by norm_num : (1:Nat) < 10) (Nat.succ_pos m)]
      rw [ih ((m + 1) / 10) (by omega)]

/-- Decimal ASCII rendering of a natural number, as produced by Python's
`str` formatting of a nonnegative integer: no sign, no leading zeros, `0`
rendered as the single byte `'0'`. -/
def natStr (n : Nat) : List Nat :=
  if n = 0 then [48] else ((natDigitsAux n n).map (fun d => d + 48)).reverse

theorem natStr_eq_digits (n : Nat) :
    natStr n = if n = 0 then [48] else ((Nat.digits 10 n).map (fun d => d + 48)).reverse := by
  unfold natStr
  rw [natDigitsAux_eq_digits n n (Nat.le_refl n)]

/-- Decimal ASCII rendering of a Python integer, as produced by the
f-strings in `encode_bencode`: a `-` sign (45) followed by the digits for
negative values, plain digits otherwise. -/
def intStr (n : Int) : List Nat :=
  if n < 0 then 45 :: natStr n.natAbs else natStr n.toNat

/-! Basic lemmas about the digit parser and the decimal printer. -/

theorem dropWhile_all_neg {p : Nat → Bool} :
    ∀ {l : List Nat}, (∀ b ∈ l, p b = false) → l.dropWhile p = l := by
  intro l h
  cases l with
  | nil => rfl
  | cons b bs => simp [List.dropWhile, h b (by simp)]

theorem stripWs_eq_self {l : List Nat} (h : ∀ b ∈ l, isPySpace b = false) :
    stripWs l = l := by
  unfold stripWs
  rw [dropWhile_all_neg h, dropWhile_all_neg (by simpa using h), List.reverse_reverse]

theorem digitTail_all_digits :
    ∀ (ds : List Nat), (∀ b ∈ ds, isAsciiDigit b = true) →
      ∀ acc, digitTail ds acc = some (ds.foldl (fun a b => 10 * a + (b - 48)) acc) := by
  intro ds
  induction ds with
  | nil => intro _ acc; rfl
  | cons b bs ih =>
    intro h acc
    have hb : isAsciiDigit b = true := h b (by simp)
    rw [digitTail.eq_def]
    simp only [hb, if_true, List.foldl_cons]
    exact ih (fun x hx => h x (by simp [hx])) _

theorem parseUDigits_all_digits {l : List Nat}
    (h : ∀ b ∈ l, isAsciiDigit b = true) (hne : l ≠ []) :
    parseUDigits l = some (l.foldl (fun a b => 10 * a + (b - 48)) 0) := by
  cases l with
  | nil => exact absurd rfl hne
  | cons b bs =>
    have hb : isAsciiDigit b = true := h b (by simp)
    simp only [parseUDigits, hb, if_true, List.foldl_cons]
    have : 10 * 0 + (b - 48) = b - 48 := by omega
    rw [this] at *
    exact digitTail_all_digits bs (fun x hx => h x (by simp [hx])) _

theorem foldl_map_digits (l : List Nat) :
    ∀ acc, ((l.map (fun d => d + 48)).reverse).foldl (fun a b => 10 * a + (b - 48)) acc
      = acc * 10 ^ l.length + Nat.ofDigits 10 l := by
  induction l with
  | nil => intro acc; simp [Nat.ofDigits]
  | cons d t ih =>
    intro acc
    simp only [List.map_cons, List.reverse_cons, List.foldl_append, List.foldl_cons,
      List.foldl_nil, ih, List.length_cons, Nat.ofDigits_cons]
    have : d + 48 - 48 = d := by omega
    rw [this, pow_succ]
    ring

theorem natStr_mem_digit {n : Nat} : ∀ b ∈ natStr n, 48 ≤ b ∧ b ≤ 57 := by
  intro b hb
  rw [natStr_eq_digits] at hb
  by_cases h : n = 0
  · simp [h] at hb; omega
  · simp only [h, if_false, List.mem_reverse, List.mem_map] at hb
    obtain ⟨d, hd, rfl⟩ := hb
    have : d < 10 := Nat.digits_lt_base (by norm_num) hd
    omega

theorem natStr_ne_nil {n : Nat} : natStr n ≠ [] := by
  rw [natStr_eq_digits]
  by_cases h : n = 0
  · simp [h]
  · simp only [h, if_false, ne_eq, List.reverse_eq_nil_iff, List.map_eq_nil_iff]
    exact Nat.digits_ne_nil_iff_ne_zero.mpr h

theorem natStr_foldl (n : Nat) :
    (natStr n).foldl (fun a b => 10 * a + (b - 48)) 0 = n := by
  rw [natStr_eq_digits]
  by_cases h : n = 0
  · simp [h]
  · simp only [h, if_false]
    rw [foldl_map_digits]
    simp [Nat.ofDigits_digits]

theorem parseUDigits_natStr (n : Nat) : parseUDigits (natStr n) = some n := by
  rw [parseUDigits_all_digits (fun b hb => by
        have := natStr_mem_digit b hb; unfold isAsciiDigit; simp; omega)
      natStr_ne_nil, natStr_foldl]

theorem natStr_not_space {n : Nat} : ∀ b ∈ natStr n, isPySpace b = false := by
  intro b hb
  have := natStr_mem_digit b hb
  unfold isPySpace
  simp only [Bool.or_eq_false_iff, beq_eq_false_iff_ne, ne_eq]
  omega

theorem natStr_head_digit {n : Nat} {b : Nat} {bs : List Nat}
    (h : natStr n = b :: bs) : isAsciiDigit b = true := by
  have : b ∈ natStr n := by rw [h]; simp
  have := natStr_mem_digit b this
  unfold isAsciiDigit; simp; omega

theorem pyIntParse_natStr (n : Nat) : pyIntParse (natStr n) = some (n : Int) := by
  unfold pyIntParse
  rw [stripWs_eq_self natStr_not_space]
  rcases hns : natStr n with _ | ⟨b, bs⟩
  · exact absurd hns natStr_ne_nil
  · have hd := natStr_head_digit hns
    have hb : 48 ≤ b ∧ b ≤ 57 := by
      unfold isAsciiDigit at hd; simpa using hd
    have h43 : ¬b = 43 := by omega
    have h45 : ¬b = 45 := by omega
    simp only [h43, if_false, h45]
    rw [← hns, parseUDigits_natStr]
    rfl

theorem pyIntParse_intStr (n : Int) : pyIntParse (intStr n) = some n := by
  unfold intStr
  by_cases h : n < 0
  · simp only [h, if_true]
    unfold pyIntParse
    have hns : ∀ b ∈ 45 :: natStr n.natAbs, isPySpace b = false := by
      intro b hb
      rcases List.mem_cons.mp hb with rfl | hb
      · rfl
      · exact natStr_not_space b hb
    rw [stripWs_eq_self hns]
    norm_num [parseUDigits_natStr]
    simp [abs_of_nonpos h.le]
  · simp only [h, if_false]
    rw [pyIntParse_natStr]
    congr 1
    omega

theorem natStr_not_mem {n c : Nat} (hc : c < 48 ∨ 57 < c) : c ∉ natStr n := by
  intro hmem
  have := natStr_mem_digit c hmem
  omega

theorem intStr_not_mem {n : Int} {c : Nat} (hc : c < 45 ∨ 57 < c ∨ c = 46 ∨ c = 47) :
    c ∉ intStr n := by
  intro hmem
  unfold intStr at hmem
  by_cases h : n < 0
  · simp only [h, if_true, List.mem_cons] at hmem
    rcases hmem with rfl | hmem
    · rcases hc with h' | h' | h' | h' <;> omega
    · have := natStr_mem_digit _ hmem; rcases hc with h' | h' | h' | h' <;> omega
  · simp only [h, if_false] at hmem
    have := natStr_mem_digit _ hmem
    rcases hc with h' | h' | h' | h' <;> omega

/-! Lemmas about `splitOnFirst`. -/

theorem splitOnFirst_append (c : Nat) :
    ∀ (p q : List Nat), c ∉ p → splitOnFirst c (p ++ c :: q) = some (p, q) := by
  intro p
  induction p with
  | nil => intro q _; simp [splitOnFirst]
  | cons b bs ih =>
    intro q h
    have hbc : ¬b = c := fun hbc => h (by simp [hbc])
    have hrec := ih q (fun hc => h (by simp [hc]))
    simp [splitOnFirst, hbc, hrec]

theorem splitOnFirst_some (c : Nat) :
    ∀ {bs p q : List Nat}, splitOnFirst c bs = some (p, q) →
      bs = p ++ c :: q ∧ c ∉ p := by
  intro bs
  induction bs with
  | nil => intro p q h; simp [splitOnFirst] at h
  | cons b bs ih =>
    intro p q h
    by_cases hbc : b = c
    · simp [splitOnFirst, hbc] at h
      obtain ⟨rfl, rfl⟩ := h
      simp [hbc]
    · simp only [splitOnFirst, hbc, if_false] at h
      rcases hsp : splitOnFirst c bs with _ | ⟨p', q'⟩ <;> simp only [hsp] at h
      · simp at h
      · simp only [Option.some.injEq, Prod.mk.injEq] at h
        obtain ⟨h1, h2⟩ := h
        subst h1; subst h2
        obtain ⟨hbs, hcp⟩ := ih hsp
        refine ⟨by simp [hbs], ?_⟩
        intro hmem
        rcases List.mem_cons.mp hmem with rfl | hmem
        · exact hbc rfl
        · exact hcp hmem

theorem splitOnFirst_none (c : Nat) :
    ∀ {bs : List Nat}, splitOnFirst c bs = none → c ∉ bs := by
  intro bs
  induction bs with
  | nil => intro _; simp
  | cons b bs ih =>
    intro h
    by_cases hbc : b = c
    · simp [splitOnFirst, hbc] at h
    · simp only [splitOnFirst, hbc, if_false] at h
      rcases hsp : splitOnFirst c bs with _ | ⟨p', q'⟩ <;> simp only [hsp] at h
      · intro hmem
        rcases List.mem_cons.mp hmem with rfl | hmem
        · exact hbc rfl
        · exact ih hsp hmem
      · simp at h

/-! The value model: the tagged union of decoded Bencode values.  `int`
models Python's arbitrary-precision `int`, `str` models a Python `bytes`
value, `list` a Python list of such values, and `dict` a Python `dict`
with `bytes` keys, represented as an association list in insertion
order (Python dictionaries preserve insertion order; overwriting an
existing key keeps its position). -/

/-- Decoded Bencode value, mirroring the union
`Union[int, bytes, List, Dict]` returned by `decode_bencode`. -/
inductive BValue : Type where
  | int (n : Int)
  | str (s : List Nat)
  | list (l : List BValue)
  | dict (d : List (List Nat × BValue))

/-- Python's `<` on `bytes`: lexicographic on the byte values, with a
proper prefix ordered before any of its extensions. -/
def bytesLt : List Nat → List Nat → Bool
  | _, [] => false
  | [], _ :: _ => true
  | a :: as, b :: bs => decide (a < b) || (a == b && bytesLt as bs)

/-- Non-strict version of `bytesLt`: the order in which Python's `sorted`
emits its results (`a` may come before `b` exactly when `not (b < a)`). -/
def bytesLe (a b : List Nat) : Bool := !bytesLt b a

theorem bytesLt_irrefl : ∀ a, bytesLt a a = false := by
  intro a
  induction a with
  | nil => rfl
  | cons b bs ih => simp [bytesLt, ih]

theorem bytesLt_trans : ∀ {a b c}, bytesLt a b = true → bytesLt b c = true →
    bytesLt a c = true := by
  intro a
  induction a with
  | nil =>
    intro b c hab hbc
    cases b with
    | nil => simp [bytesLt] at hab
    | cons y ys =>
      cases c with
      | nil => simp [bytesLt] at hbc
      | cons z zs => simp [bytesLt]
  | cons x xs ih =>
    intro b c hab hbc
    cases b with
    | nil => simp [bytesLt] at hab
    | cons y ys =>
      cases c with
      | nil => simp [bytesLt] at hbc
      | cons z zs =>
        simp only [bytesLt, Bool.or_eq_true, Bool.and_eq_true, decide_eq_true_eq,
          beq_iff_eq] at *
        rcases hab with h1 | ⟨rfl, h2⟩
        · rcases hbc with h3 | ⟨rfl, h4⟩
          · exact Or.inl (Nat.lt_trans h1 h3)
          · exact Or.inl h1
        · rcases hbc with h3 | ⟨rfl, h4⟩
          · exact Or.inl h3
          · exact Or.inr ⟨rfl, ih h2 h4⟩

theorem bytesLt_asymm {a b : List Nat} (h : bytesLt a b = true) :
    bytesLt b a = false := by
  cases hba : bytesLt b a with
  | false => rfl
  | true =>
    have := bytesLt_trans h hba
    rw [bytesLt_irrefl] at this
    exact absurd this (by simp)

theorem bytesLt_connex : ∀ {a b : List Nat}, a ≠ b →
    bytesLt a b = true ∨ bytesLt b a = true := by
  intro a
  induction a with
  | nil =>
    intro b hne
    cases b with
    | nil => exact absurd rfl hne
    | cons y ys => exact Or.inl (by simp [bytesLt])
  | cons x xs ih =>
    intro b hne
    cases b with
    | nil => exact Or.inr (by simp [bytesLt])
    | cons y ys =>
      by_cases hxy : x = y
      · subst hxy
        have hys : xs ≠ ys := fun h => hne (by rw [h])
        rcases ih hys with h | h
        · exact Or.inl (by simp [bytesLt, h])
        · exact Or.inr (by simp [bytesLt, h])
      · rcases Nat.lt_or_ge x y with h | h
        · exact Or.inl (by simp [bytesLt, h])
        · have : y < x := Nat.lt_of_le_of_ne h (fun hyx => hxy hyx.symm)
          exact Or.inr (by simp [bytesLt, this])

/-- Sort order used for dictionary entries (and more generally for
key/value pairs with byte-string keys): compare the raw key bytes.  With
unique keys this is exactly the order produced by Python's
`sorted(data.items())`, since comparison of the item tuples is decided on
the first components. -/
def keyLe {α : Type} (p q : List Nat × α) : Prop := bytesLe p.1 q.1 = true

/-- Strict version of `keyLe`. -/
def keyLt {α : Type} (p q : List Nat × α) : Prop := bytesLt p.1 q.1 = true

instance {α : Type} : DecidableRel (@keyLe α) := fun p q => by
  unfold keyLe; infer_instance

instance {α : Type} : DecidableRel (@keyLt α) := fun p q => by
  unfold keyLt; infer_instance

instance {α : Type} : IsTotal (List Nat × α) keyLe := by
  constructor
  intro p q
  unfold keyLe bytesLe
  cases h : bytesLt q.1 p.1 with
  | false => exact Or.inl (by simp)
  | true => exact Or.inr (by simp [bytesLt_asymm h])

instance {α : Type} : IsTrans (List Nat × α) keyLe := by
  constructor
  intro p q r hpq hqr
  unfold keyLe bytesLe at *
  simp only [Bool.not_eq_true'] at *
  cases hrp : bytesLt r.1 p.1 with
  | false => rfl
  | true =>
    exfalso
    by_cases hqp : q.1 = p.1
    · rw [hqp, hrp] at hqr
      simp at hqr
    · rcases bytesLt_connex hqp with h | h
      · rw [hpq] at h
        simp at h
      · have := bytesLt_trans hrp h
        rw [hqr] at this
        simp at this

instance {α : Type} : IsAntisymm (List Nat × α) keyLt := by
  constructor
  intro p q hpq hqp
  unfold keyLt at *
  rw [bytesLt_asymm hpq] at hqp
  exact absurd hqp (by simp)

theorem keyLt_of_keyLe_ne {α : Type} {p q : List Nat × α}
    (h : keyLe p q) (hne : p.1 ≠ q.1) : keyLt p q := by
  unfold keyLe bytesLe at h
  unfold keyLt
  simp only [Bool.not_eq_true'] at h
  rcases bytesLt_connex hne with h' | h'
  · exact h'
  · rw [h'] at h; exact absurd h (by simp)

/-- Model of Python's `sorted` on a list of key/value pairs whose keys
are byte strings: a stable sort ascending by raw key bytes. -/
def sortEntries {α : Type} (d : List (List Nat × α)) : List (List Nat × α) :=
  List.insertionSort keyLe d

theorem sortEntries_perm {α : Type} (d : List (List Nat × α)) :
    List.Perm (sortEntries d) d :=
  List.perm_insertionSort keyLe d

theorem sortEntries_sorted {α : Type} (d : List (List Nat × α)) :
    List.Sorted keyLe (sortEntries d) :=
  List.sorted_insertionSort keyLe d

/-- Keys of an association list, in order. -/
def keysOf {α : Type} (d : List (List Nat × α)) : List (List Nat) :=
  d.map Prod.fst

theorem sorted_keyLt_of_nodup {α : Type} {l : List (List Nat × α)}
    (hs : List.Sorted keyLe l) (hn : (keysOf l).Nodup) :
    List.Sorted keyLt l := by
  have hpw : List.Pairwise (fun p q : List Nat × α => p.1 ≠ q.1) l := by
    unfold keysOf at hn
    exact List.pairwise_map.mp hn
  exact (hs.and hpw).imp (fun h => keyLt_of_keyLe_ne h.1 h.2)

theorem sortEntries_eq_of_perm {α : Type} {d₁ d₂ : List (List Nat × α)}
    (hperm : List.Perm d₁ d₂) (hnd : (keysOf d₁).Nodup) :
    sortEntries d₁ = sortEntries d₂ := by
  have hnd₂ : (keysOf d₂).Nodup := (hperm.map Prod.fst).nodup_iff.mp hnd
  have h₁ : List.Sorted keyLt (sortEntries d₁) :=
    sorted_keyLt_of_nodup (sortEntries_sorted d₁)
      (((sortEntries_perm d₁).map Prod.fst).nodup_iff.mpr hnd)
  have h₂ : List.Sorted keyLt (sortEntries d₂) :=
    sorted_keyLt_of_nodup (sortEntries_sorted d₂)
      (((sortEntries_perm d₂).map Prod.fst).nodup_iff.mpr hnd₂)
  exact List.eq_of_perm_of_sorted
    (((sortEntries_perm d₁).trans hperm).trans (sortEntries_perm d₂).symm) h₁ h₂

/-- Lookup in the association-list model of a Python `dict`: the first
entry with key `k`.  Under the unique-key invariant maintained by
`dictInsert` this is the entry for `k`, matching Python's `d[k]` and
`k in d`. -/
def lookupD {α : Type} (k : List Nat) : List (List Nat × α) → Option α
  | [] => none
  | kv :: rest => if kv.1 = k then some kv.2 else lookupD k rest

/-- Python's `d[key] = value` on the association-list model: when the key
is present its entry is overwritten in place, keeping its position (as
CPython dictionaries do); otherwise the new pair is appended at the end
(insertion order). -/
def dictInsert {α : Type} (k : List Nat) (v : α) (d : List (List Nat × α)) :
    List (List Nat × α) :=
  if (lookupD k d).isSome then d.map (fun kv => if kv.1 = k then (k, v) else kv)
  else d ++ [(k, v)]

/-- Dictionary obtained by inserting the pairs of `ps` in order into an
initially empty dictionary — the shape produced by the decoder's
dictionary loop. -/
def buildDict {α : Type} (ps : List (List Nat × α)) : List (List Nat × α) :=
  ps.foldl (fun acc p => dictInsert p.1 p.2 acc) []

/-- Encoding of a byte string: decimal length, `':'` (58), then the raw
bytes (`src/script.py` line 21). -/
def encodeStr (s : List Nat) : List Nat :=
  natStr s.length ++ 58 :: s

/-! Encoder.  `encodeB` is the translation of `encode_bencode`
(`src/script.py` lines 17-32) restricted to the `BValue` domain (the
`str` branch of the Python function is covered separately by the
`PyData` model below, and the `ValueError` branch is unreachable on this
domain).  One representational remark: the Python code sorts the
dictionary items first and then encodes key and value of each item in
sorted order.  Since the sort compares only the keys (for a Python
`dict` the keys of distinct items are distinct, so the item-tuple
comparison used by `sorted` is decided on the first components) and the
keys are not altered by encoding the values, encoding each value first
and then sorting the (key, encoded value) pairs by key produces the same
byte string.  The definition below uses that form so that the function
is structurally recursive; the lemma `encodeB_dict_eq_sorted` recovers
the literal sort-items-then-encode shape of the source. -/

/-- Emission step of the dictionary branch: encoded key immediately
followed by the (already encoded) value, for each entry in order
(`src/script.py` lines 28-29). -/
def emitEntries : List (List Nat × List Nat) → List Nat
  | [] => []
  | p :: ps => encodeStr p.1 ++ p.2 ++ emitEntries ps

mutual
/-- Canonical Bencode encoding of a value (`encode_bencode`). -/
def encodeB : BValue → List Nat
  | .int n => 105 :: intStr n ++ [101]
  | .str s => encodeStr s
  | .list l => 108 :: encodeSeq l ++ [101]
  | .dict d => 100 :: emitEntries (sortEntries (encodePairs d)) ++ [101]
/-- Concatenated encodings of the elements of a list, in order
(`src/script.py` line 25). -/
def encodeSeq : List BValue → List Nat
  | [] => []
  | v :: vs => encodeB v ++ encodeSeq vs
/-- Pairs of key and encoded value for the entries of a dictionary, in
the dictionary's own order. -/
def encodePairs : List (List Nat × BValue) → List (List Nat × List Nat)
  | [] => []
  | kv :: rest => (kv.1, encodeB kv.2) :: encodePairs rest
end

theorem encodePairs_eq_map (d : List (List Nat × BValue)) :
    encodePairs d = d.map (fun kv => (kv.1, encodeB kv.2)) := by
  induction d with
  | nil => rfl
  | cons kv rest ih => simp [encodePairs, ih]

theorem sortEntries_map_comm {α β : Type} (g : List Nat × α → β) :
    ∀ d : List (List Nat × α),
      sortEntries (d.map (fun kv => (kv.1, g kv))) =
        (sortEntries d).map (fun kv => (kv.1, g kv)) := by
  intro d
  induction d with
  | nil => rfl
  | cons kv rest ih =>
    unfold sortEntries at *
    simp only [List.map_cons, List.insertionSort]
    rw [ih]
    rw [List.map_orderedInsert keyLe keyLe (fun kv => (kv.1, g kv))
      (List.insertionSort keyLe rest) kv (fun a _ => Iff.rfl) (fun a _ => Iff.rfl)]

/-- The dictionary branch of `encodeB` agrees with the literal shape of
the Python source: sort the items by key first, then encode each key and
value in sorted order. -/
theorem encodeB_dict_eq_sorted (d : List (List Nat × BValue)) :
    encodeB (.dict d) = 100 :: emitEntries (encodePairs (sortEntries d)) ++ [101] := by
  have h1 : encodeB (.dict d) = 100 :: emitEntries (sortEntries (encodePairs d)) ++ [101] := by
    rw [encodeB]
  rw [h1, encodePairs_eq_map, encodePairs_eq_map, sortEntries_map_comm]

/-! Well-formedness: every dictionary anywhere inside the value has
pairwise distinct keys.  This always holds for values produced by the
decoder or built from actual Python dictionaries (a Python `dict` cannot
hold two entries with equal keys); it is stated explicitly because the
association-list model is more permissive. -/

mutual
/-- All dictionaries inside the value have pairwise distinct keys. -/
def wfB : BValue → Bool
  | .int _ => true
  | .str _ => true
  | .list l => wfL l
  | .dict d => decide (keysOf d).Nodup && wfD d
def wfL : List BValue → Bool
  | [] => true
  | v :: vs => wfB v && wfL vs
def wfD : List (List Nat × BValue) → Bool
  | [] => true
  | kv :: rest => wfB kv.2 && wfD rest
end

/-! Normal form reached by a decode/encode round trip: every dictionary's
entries listed in ascending key order.  This is not a function of the
Python source; it is the explicit description of the insertion order the
decoder produces when reading a canonically encoded value. -/

mutual
/-- Recursively sort all dictionary entries by key. -/
def normalizeB : BValue → BValue
  | .int n => .int n
  | .str s => .str s
  | .list l => .list (normSeq l)
  | .dict d => .dict (sortEntries (normEntries d))
def normSeq : List BValue → List BValue
  | [] => []
  | v :: vs => normalizeB v :: normSeq vs
def normEntries : List (List Nat × BValue) → List (List Nat × BValue)
  | [] => []
  | kv :: rest => (kv.1, normalizeB kv.2) :: normEntries rest
end

/-! Python's `==` on decoded values (structural equality): integers and
byte strings by value, lists pointwise in order, dictionaries by
comparing lengths and looking every key of the left dictionary up in the
right one — insertion order is irrelevant for dictionaries.  This is the
equality the spec's Value Model prescribes. -/

mutual
/-- Python structural equality `==` on decoded values. -/
def pyBeq : BValue → BValue → Bool
  | .int a, .int b => a == b
  | .str a, .str b => a == b
  | .list a, .list b => pyBeqList a b
  | .dict a, .dict b => a.length == b.length && pyBeqEntries a b
  | _, _ => false
def pyBeqList : List BValue → List BValue → Bool
  | [], [] => true
  | x :: xs, y :: ys => pyBeq x y && pyBeqList xs ys
  | _, _ => false
def pyBeqEntries : List (List Nat × BValue) → List (List Nat × BValue) → Bool
  | [], _ => true
  | kv :: rest, b =>
    (match lookupD kv.1 b with
     | some w => pyBeq kv.2 w
     | none => false) && pyBeqEntries rest b
end

/-- Error conditions raised by the decoders.  Each constructor identifies
one `raise` site (the condition, not the Python exception class:
`src/script.py` raises `BencodeDecodeError`, `src/main.py` raises
`ValueError` at the same points, except that for a non-numeric string
length `src/main.py` simply lets the `ValueError` from `int()` escape).
`indexError` models the uncaught `IndexError` that `src/main.py` line 8
raises when subscripting an empty byte sequence, and `outOfFuel` is an
artifact of the fuel-based model of the decoder's recursion, shown below
never to occur for the fuel actually supplied. -/
inductive DErr : Type where
  | emptyInput
  | missingColon
  | nonNumericLength
  | lengthMismatch
  | missingIntEnd
  | nonNumericInt
  | unterminatedList
  | unterminatedDict
  | keyNotBytes
  | unsupportedType
  | indexError
  | outOfFuel
deriving DecidableEq

/-- Translation of `_decode_string` (`src/script.py` lines 68-81; the same
code appears inline in `src/main.py` lines 8-17): find the first colon in
the whole input, parse everything before it with Python's `int()`, reject
when the declared end position exceeds the input, otherwise return the
slice of that length after the colon together with the bytes following
it.  The parsed length is an `Int` because `int()` returns a Python
integer; this branch of the decoder only runs when the leading byte is an
ASCII digit (or a superscript digit byte, which `int()` then rejects), so
a parsed negative value is impossible: a sign would have to precede the
first digit. -/
def decode_string (bs : List Nat) : Except DErr (BValue × List Nat) :=
  match splitOnFirst 58 bs with
  | none => .error .missingColon
  | some (pre, post) =>
    match pyIntParse pre with
    | none => .error .nonNumericLength
    | some L =>
      if (post.length : Int) < L then .error .lengthMismatch
      else .ok (.str (post.take L.toNat), post.drop L.toNat)

/-- Translation of `_decode_integer` (`src/script.py` lines 84-92; inline
in `src/main.py` lines 18-25): find the first `'e'` (101) searching from
index 1, parse the span between the leading byte and that `'e'` with
Python's `int()`, and return the parsed value with the bytes after the
terminator.  The leading byte (always `'i'` when dispatched) is skipped
and never matched as a terminator. -/
def decode_integer (bs : List Nat) : Except DErr (BValue × List Nat) :=
  match bs with
  | [] => .error .missingIntEnd
  | _ :: rest =>
    match splitOnFirst 101 rest with
    | none => .error .missingIntEnd
    | some (span, tail) =>
      match pyIntParse span with
      | none => .error .nonNumericInt
      | some n => .ok (.int n, tail)

/-! Byte-level decoder.  `decodeF` translates `decode_bencode` of
`src/script.py` (lines 35-65) restricted to byte-sequence arguments — the
integer-argument branch lives in the `decode_bencode` wrapper below, and
the emptiness check of line 50 is the `[]` case here, so that the
recursive calls made by the container loops inherit it exactly as in the
source.  The parameter `e0` is the error produced for an empty byte
sequence: `BencodeDecodeError` with the empty-input message for
`src/script.py`, the uncaught `IndexError` for `src/main.py`, which has
no emptiness check and subscripts the buffer directly; the two files are
otherwise byte-for-byte the same algorithm.  The `while` loops of
`_decode_list` and `_decode_dict` become the recursive functions
`decode_list_items` and `decode_dict_items`; `decode_list_items` returns
the decoded items in encounter order (the Python loop appends to a
list), and `decode_dict_items` threads the dictionary being built
through `dictInsert` exactly as `decoded_dict[key] = value` does.  The
fuel argument bounds the recursion depth; `decodeB` supplies
`2 * length + 1`, which the no-fuel lemmas below prove sufficient. -/

mutual
/-- One call of `decode_bencode` on a byte sequence: dispatch on the first
byte (digit → string, `'i'` → integer, `'l'` → list, `'d'` → dictionary,
otherwise an unsupported-type error; empty input → `e0`). -/
def decodeF (e0 : DErr) : Nat → List Nat → Except DErr (BValue × List Nat)
  | 0, _ => .error .outOfFuel
  | _ + 1, [] => .error e0
  | f + 1, b :: bs =>
    if pyIsDigit b then decode_string (b :: bs)
    else if b = 105 then decode_integer (b :: bs)
    else if b = 108 then
      match decode_list_items e0 f bs with
      | .ok (vs, r) => .ok (.list vs, r)
      | .error er => .error er
    else if b = 100 then
      match decode_dict_items e0 f bs [] with
      | .ok (d, r) => .ok (.dict d, r)
      | .error er => .error er
    else .error .unsupportedType
/-- Loop of `_decode_list` (`src/script.py` lines 95-104): decode values
until the next byte is `'e'` (consumed) or the input runs out (error). -/
def decode_list_items (e0 : DErr) : Nat → List Nat →
    Except DErr (List BValue × List Nat)
  | 0, _ => .error .outOfFuel
  | _ + 1, [] => .error .unterminatedList
  | f + 1, b :: bs =>
    if b = 101 then .ok ([], bs)
    else
      match decodeF e0 f (b :: bs) with
      | .error er => .error er
      | .ok (v, r) =>
        match decode_list_items e0 f r with
        | .error er => .error er
        | .ok (vs, r') => .ok (v :: vs, r')
/-- Loop of `_decode_dict` (`src/script.py` lines 107-121): decode a key
(which must be a byte string), decode its value, store it with
`decoded_dict[key] = value`, and repeat until the closing `'e'`
(consumed) or the input runs out (error). -/
def decode_dict_items (e0 : DErr) : Nat → List Nat → List (List Nat × BValue) →
    Except DErr (List (List Nat × BValue) × List Nat)
  | 0, _, _ => .error .outOfFuel
  | _ + 1, [], _ => .error .unterminatedDict
  | f + 1, b :: bs, acc =>
    if b = 101 then .ok (acc, bs)
    else
      match decodeF e0 f (b :: bs) with
      | .error er => .error er
      | .ok (.str k, r) =>
        match decodeF e0 f r with
        | .error er => .error er
        | .ok (v, r') => decode_dict_items e0 f r' (dictInsert k v acc)
      | .ok (_, _) => .error .keyNotBytes
end

/-- Decoder of `src/script.py` on a byte sequence, with the fuel fixed at
a sufficient value. -/
def decodeB (bs : List Nat) : Except DErr (BValue × List Nat) :=
  decodeF .emptyInput (2 * bs.length + 1) bs

/-- Decoder of `src/main.py` on a byte sequence. -/
def mainDecodeB (bs : List Nat) : Except DErr (BValue × List Nat) :=
  decodeF .indexError (2 * bs.length + 1) bs

/-- Argument of `decode_bencode` as the dynamically typed Python callers
may supply it: a byte sequence (the documented type) or a plain integer
(accepted by an explicit `isinstance` check in both files). -/
inductive PyInput : Type where
  | bytes (bs : List Nat)
  | int (n : Int)

/-- Entry point `decode_bencode` of `src/script.py` (lines 35-65): first
the falsiness check of line 50 (`not bencoded_value` — true for an empty
byte sequence and for the integer 0) raising the empty-input error, then
the integer echo of lines 53-54, then the byte-level dispatch. -/
def decode_bencode : PyInput → Except DErr (BValue × List Nat)
  | .int n => if n = 0 then .error .emptyInput else .ok (.int n, [])
  | .bytes bs => decodeB bs

/-- Entry point `decode_bencode` of `src/main.py` (lines 5-48): the
integer check comes first (line 6) and there is no emptiness check, so an
empty byte sequence reaches `bencoded_value[0]` and raises
`IndexError`. -/
def main_decode_bencode : PyInput → Except DErr (BValue × List Nat)
  | .int n => .ok (.int n, [])
  | .bytes bs => mainDecodeB bs

/-- Dynamically typed Python value as `encode_bencode` may receive it: the
variants the encoder handles — `int`, `bytes`, `str` (encoded via UTF-8,
so represented here directly by the bytes of its UTF-8 encoding, which is
what `data.encode(ENCODING)` produces), `list` and `dict` — plus `other`,
standing for a value of any type the encoder rejects with `ValueError`
(for example `None` or a float).  Dictionary keys are modelled as byte
strings, the only key type this program ever builds or decodes. -/
inductive PyData : Type where
  | int (n : Int)
  | bytes (s : List Nat)
  | str (s : List Nat)
  | list (l : List PyData)
  | dict (d : List (List Nat × PyData))
  | other

mutual
/-- Translation of `encode_bencode` (`src/script.py` lines 17-32) on the
dynamically typed domain; `.error ()` models the `ValueError` of line 32.
In the dictionary branch the values are encoded before the entries are
sorted by key (see the remark at `encodeB`: with a Python `dict` this
yields the same bytes as the source's sort-then-encode order, and an
unencodable value makes the whole call fail either way). -/
def encode_bencode : PyData → Except Unit (List Nat)
  | .int n => .ok (105 :: intStr n ++ [101])
  | .bytes s => .ok (encodeStr s)
  | .str s => .ok (encodeStr s)
  | .list l =>
    match encodeSeqP l with
    | .ok m => .ok (108 :: m ++ [101])
    | .error e => .error e
  | .dict d =>
    match encodePairsP d with
    | .ok ps => .ok (100 :: emitEntries (sortEntries ps) ++ [101])
    | .error e => .error e
  | .other => .error ()
/-- Concatenated encodings of a Python list's elements, failing if any
element is unencodable. -/
def encodeSeqP : List PyData → Except Unit (List Nat)
  | [] => .ok []
  | v :: vs =>
    match encode_bencode v with
    | .error e => .error e
    | .ok m =>
      match encodeSeqP vs with
      | .error e => .error e
      | .ok ms => .ok (m ++ ms)
/-- Key/encoded-value pairs of a Python dictionary's entries, failing if
any value is unencodable. -/
def encodePairsP : List (List Nat × PyData) → Except Unit (List (List Nat × List Nat))
  | [] => .ok []
  | kv :: rest =>
    match encode_bencode kv.2 with
    | .error e => .error e
    | .ok m =>
      match encodePairsP rest with
      | .error e => .error e
      | .ok ps => .ok ((kv.1, m) :: ps)
end

mutual
/-- Injection of the value model into the dynamically typed domain (a
decoded byte string is a Python `bytes`). -/
def toPy : BValue → PyData
  | .int n => .int n
  | .str s => .bytes s
  | .list l => .list (toPyL l)
  | .dict d => .dict (toPyD d)
def toPyL : List BValue → List PyData
  | [] => []
  | v :: vs => toPy v :: toPyL vs
def toPyD : List (List Nat × BValue) → List (List Nat × PyData)
  | [] => []
  | kv :: rest => (kv.1, toPy kv.2) :: toPyD rest
end

/-! SHA-1, implemented arithmetically (FIPS 180-1).  `hashlib.sha1` is the
Python standard library, not code of this repository; the definitions
below implement the algorithm the spec identifies as "the 20-byte digest
algorithm used by the BitTorrent metadata standard".  The bit operations
are written with explicit fuel over the 32 bits so that everything
reduces inside the kernel. -/

/-- Combine the low `f` bits of two words bitwise with `op`. -/
def bitsOp (op : Bool → Bool → Bool) : Nat → Nat → Nat → Nat
  | 0, _, _ => 0
  | f + 1, a, b =>
    (if op (decide (a % 2 = 1)) (decide (b % 2 = 1)) then 1 else 0)
      + 2 * bitsOp op f (a / 2) (b / 2)

/-- Bitwise and on 32-bit words. -/
def and32 (a b : Nat) : Nat := bitsOp (fun x y => x && y) 32 a b

/-- Bitwise or on 32-bit words. -/
def or32 (a b : Nat) : Nat := bitsOp (fun x y => x || y) 32 a b

/-- Bitwise exclusive or on 32-bit words. -/
def xor32 (a b : Nat) : Nat := bitsOp (fun x y => x != y) 32 a b

/-- Bitwise complement on 32-bit words. -/
def not32 (x : Nat) : Nat := 4294967295 - x % 4294967296

/-- Left rotation of a 32-bit word by `k` bits. -/
def rotl32 (k x : Nat) : Nat :=
  (x * 2 ^ k) % 4294967296 + x % 4294967296 / 2 ^ (32 - k)

/-- Big-endian bytes of `n`, `k` bytes wide. -/
def beBytes : Nat → Nat → List Nat
  | 0, _ => []
  | k + 1, n => beBytes k (n / 256) ++ [n % 256]

/-- Big-endian 32-bit words from a byte sequence (groups of 4). -/
def wordsOfBytes : List Nat → List Nat
  | b0 :: b1 :: b2 :: b3 :: rest =>
    (((b0 * 256 + b1) * 256 + b2) * 256 + b3) :: wordsOfBytes rest
  | _ => []

/-- Message-schedule extension: append `k` further words, each the
1-bit left rotation of the exclusive or of the words 3, 8, 14 and 16
positions back. -/
def extendWords : Nat → List Nat → List Nat
  | 0, ws => ws
  | k + 1, ws =>
    extendWords k (ws ++ [rotl32 1
      (xor32 (xor32 (ws.getD (ws.length - 3) 0) (ws.getD (ws.length - 8) 0))
             (xor32 (ws.getD (ws.length - 14) 0) (ws.getD (ws.length - 16) 0)))])

/-- One SHA-1 round: round index `i`, state `(a, b, c, d, e)`, schedule
word `w`. -/
def sha1Round (i : Nat) (st : Nat × Nat × Nat × Nat × Nat) (w : Nat) :
    Nat × Nat × Nat × Nat × Nat :=
  match st with
  | (a, b, c, d, e) =>
    let fv := if i < 20 then or32 (and32 b c) (and32 (not32 b) d)
      else if i < 40 then xor32 (xor32 b c) d
      else if i < 60 then or32 (or32 (and32 b c) (and32 b d)) (and32 c d)
      else xor32 (xor32 b c) d
    let kv := if i < 20 then 1518500249 else if i < 40 then 1859775393
      else if i < 60 then 2400959708 else 3395469782
    ((rotl32 5 a + fv + e + kv + w) % 4294967296, a, rotl32 30 b, c, d)

/-- Run the 80 rounds over the schedule words starting at round `i`. -/
def sha1Rounds : Nat → List Nat → Nat × Nat × Nat × Nat × Nat →
    Nat × Nat × Nat × Nat × Nat
  | _, [], st => st
  | i, w :: ws, st => sha1Rounds (i + 1) ws (sha1Round i st w)

/-- Process one 64-byte chunk: run the rounds from the current hash state
and add the result back componentwise. -/
def sha1Chunk (h : Nat × Nat × Nat × Nat × Nat) (chunk : List Nat) :
    Nat × Nat × Nat × Nat × Nat :=
  match h, sha1Rounds 0 (extendWords 64 (wordsOfBytes chunk)) h with
  | (h0, h1, h2, h3, h4), (a, b, c, d, e) =>
    ((h0 + a) % 4294967296, (h1 + b) % 4294967296, (h2 + c) % 4294967296,
     (h3 + d) % 4294967296, (h4 + e) % 4294967296)

/-- Fold the chunks through the compression function. -/
def sha1Blocks : List (List Nat) → Nat × Nat × Nat × Nat × Nat →
    Nat × Nat × Nat × Nat × Nat
  | [], h => h
  | c :: cs, h => sha1Blocks cs (sha1Chunk h c)

/-- Merkle–Damgård padding: a `0x80` byte, zeros to 56 mod 64, then the
bit length as 8 big-endian bytes. -/
def sha1Pad (msg : List Nat) : List Nat :=
  msg ++ 128 :: List.replicate ((119 - msg.length % 64) % 64) 0
    ++ beBytes 8 (8 * msg.length)

/-- Split into 64-byte chunks (fuel-based; the fuel `length + 1` is ample
since every step consumes at least one byte). -/
def chunksOf64 : Nat → List Nat → List (List Nat)
  | 0, _ => []
  | _ + 1, [] => []
  | f + 1, l => l.take 64 :: chunksOf64 f (l.drop 64)

/-- Big-endian bytes of the five state words. -/
def stBytes (st : Nat × Nat × Nat × Nat × Nat) : List Nat :=
  beBytes 4 st.1 ++ beBytes 4 st.2.1 ++ beBytes 4 st.2.2.1
    ++ beBytes 4 st.2.2.2.1 ++ beBytes 4 st.2.2.2.2

/-- SHA-1 digest (20 bytes) of a byte sequence. -/
def sha1Bytes (msg : List Nat) : List Nat :=
  stBytes (sha1Blocks (chunksOf64 (sha1Pad msg).length (sha1Pad msg))
    (1732584193, 4023233417, 2562383102, 271733878, 3285377520))

/-- Lowercase hexadecimal character for a value below 16. -/
def hexChar (d : Nat) : Nat := if d < 10 then 48 + d else 87 + d

/-- Lowercase hexadecimal rendering of a byte sequence, as produced by
`hexdigest()`: two characters per byte. -/
def hexOfBytes : List Nat → List Nat
  | [] => []
  | b :: bs => hexChar (b / 16 % 16) :: hexChar (b % 16) :: hexOfBytes bs

/-- Translation of `calculate_info_hash` (`src/script.py` lines 146-148)
on the value model: canonically encode the value, hash the bytes with
SHA-1, and return the lowercase hexadecimal string `hexdigest()` builds —
a 40-character rendering of the 20-byte digest, not the digest bytes
themselves.  The encoding call is `encode_bencode`; on this domain it
always succeeds and produces `encodeB` (proved below), so `encodeB` is
used directly. -/
def calculate_info_hash (info : BValue) : List Nat :=
  hexOfBytes (sha1Bytes (encodeB info))

/-! Properties of the two leaf decoders. -/

theorem decode_string_consume {bs : List Nat} {v : BValue} {r : List Nat}
    (h : decode_string bs = .ok (v, r)) : r.length < bs.length := by
  unfold decode_string at h
  rcases hsp : splitOnFirst 58 bs with _ | ⟨pre, post⟩ <;> simp only [hsp] at h
  · simp at h
  · rcases hL : pyIntParse pre with _ | L <;> simp only [hL] at h
    · simp at h
    · split_ifs at h with hlen
      simp only [Except.ok.injEq, Prod.mk.injEq] at h
      have hr : r = List.drop L.toNat post := h.2.symm
      obtain ⟨hbs, _⟩ := splitOnFirst_some 58 hsp
      subst hr
      subst hbs
      simp only [List.length_append, List.length_cons, List.length_drop]
      omega

theorem decode_integer_consume {bs : List Nat} {v : BValue} {r : List Nat}
    (h : decode_integer bs = .ok (v, r)) : r.length < bs.length := by
  unfold decode_integer at h
  cases bs with
  | nil => simp at h
  | cons b rest =>
    rcases hsp : splitOnFirst 101 rest with _ | ⟨span, tail⟩ <;> simp only [hsp] at h
    · simp at h
    · rcases hn : pyIntParse span with _ | n <;> simp only [hn] at h
      · simp at h
      · simp only [Except.ok.injEq, Prod.mk.injEq] at h
        have hr : r = tail := h.2.symm
        obtain ⟨hbs, _⟩ := splitOnFirst_some 101 hsp
        subst hr
        subst hbs
        simp only [List.length_cons, List.length_append]
        omega

theorem decode_string_no_fuel {bs : List Nat} :
    decode_string bs ≠ .error .outOfFuel := by
  unfold decode_string
  rcases hsp : splitOnFirst 58 bs with _ | ⟨pre, post⟩ <;> simp only [hsp]
  · simp
  · rcases hL : pyIntParse pre with _ | L <;> simp only [hL]
    · simp
    · split_ifs <;> simp

theorem decode_integer_no_fuel {bs : List Nat} :
    decode_integer bs ≠ .error .outOfFuel := by
  unfold decode_integer
  cases bs with
  | nil => simp
  | cons b rest =>
    rcases hsp : splitOnFirst 101 rest with _ | ⟨span, tail⟩ <;> simp only [hsp]
    · simp
    · rcases hn : pyIntParse span with _ | n <;> simp only [hn] <;> simp

/-! The decoder always consumes at least one byte on success, at every
fuel value. -/

theorem decodeF_consume : ∀ f : Nat,
    (∀ e0 bs v r, decodeF e0 f bs = .ok (v, r) → r.length < bs.length)
    ∧ (∀ e0 bs vs r, decode_list_items e0 f bs = .ok (vs, r) → r.length < bs.length)
    ∧ (∀ e0 bs acc d r, decode_dict_items e0 f bs acc = .ok (d, r) →
        r.length < bs.length) := by
  intro f
  induction f with
  | zero =>
    refine ⟨?_, ?_, ?_⟩
    · intro e0 bs v r h; simp [decodeF] at h
    · intro e0 bs vs r h; simp [decode_list_items] at h
    · intro e0 bs acc d r h; simp [decode_dict_items] at h
  | succ f ih =>
    obtain ⟨ihD, ihL, ihK⟩ := ih
    refine ⟨?_, ?_, ?_⟩
    · intro e0 bs v r h
      cases bs with
      | nil => simp [decodeF] at h
      | cons b bs' =>
        rw [decodeF] at h
        split_ifs at h with h1 h2 h3 h4
        · exact decode_string_consume h
        · exact decode_integer_consume h
        · cases hl : decode_list_items e0 f bs' with
          | error er => rw [hl] at h; simp at h
          | ok p =>
            obtain ⟨vs, r'⟩ := p
            rw [hl] at h
            dsimp only at h
            simp only [Except.ok.injEq, Prod.mk.injEq] at h
            obtain ⟨_, hr⟩ := h
            have := ihL e0 bs' vs r' hl
            rw [← hr]
            simp only [List.length_cons]
            omega
        · cases hd : decode_dict_items e0 f bs' [] with
          | error er => rw [hd] at h; simp at h
          | ok p =>
            obtain ⟨d, r'⟩ := p
            rw [hd] at h
            dsimp only at h
            simp only [Except.ok.injEq, Prod.mk.injEq] at h
            obtain ⟨_, hr⟩ := h
            have := ihK e0 bs' [] d r' hd
            rw [← hr]
            simp only [List.length_cons]
            omega
    · intro e0 bs vs r h
      cases bs with
      | nil => simp [decode_list_items] at h
      | cons b t =>
        rw [decode_list_items] at h
        split_ifs at h with hb
        · simp only [Except.ok.injEq, Prod.mk.injEq] at h
          obtain ⟨_, hr⟩ := h
          rw [← hr]; simp
        · cases hd : decodeF e0 f (b :: t) with
          | error er => rw [hd] at h; simp at h
          | ok p =>
            obtain ⟨v1, r1⟩ := p
            rw [hd] at h
            dsimp only at h
            cases hl : decode_list_items e0 f r1 with
            | error er => rw [hl] at h; simp at h
            | ok q =>
              obtain ⟨vs1, r2⟩ := q
              rw [hl] at h
              dsimp only at h
              simp only [Except.ok.injEq, Prod.mk.injEq] at h
              obtain ⟨_, hr⟩ := h
              have c1 := ihD e0 (b :: t) v1 r1 hd
              have c2 := ihL e0 r1 vs1 r2 hl
              rw [← hr]
              simp only [List.length_cons] at *
              omega
    · intro e0 bs acc d r h
      cases bs with
      | nil => simp [decode_dict_items] at h
      | cons b t =>
        rw [decode_dict_items] at h
        split_ifs at h with hb
        · simp only [Except.ok.injEq, Prod.mk.injEq] at h
          obtain ⟨_, hr⟩ := h
          rw [← hr]; simp
        · cases hd : decodeF e0 f (b :: t) with
          | error er => rw [hd] at h; simp at h
          | ok p =>
            obtain ⟨k, r1⟩ := p
            rw [hd] at h
            cases k with
            | str ks =>
              dsimp only at h
              cases hv : decodeF e0 f r1 with
              | error er => rw [hv] at h; simp at h
              | ok q =>
                obtain ⟨v1, r2⟩ := q
                rw [hv] at h
                dsimp only at h
                have c1 := ihD e0 (b :: t) (.str ks) r1 hd
                have c2 := ihD e0 r1 v1 r2 hv
                have c3 := ihK e0 r2 (dictInsert ks v1 acc) d r (by exact h)
                simp only [List.length_cons] at *
                omega
            | int n => simp at h
            | list l => simp at h
            | dict dd => simp at h

/-! With fuel exceeding twice the input length, the decoder never reports
fuel exhaustion. -/

theorem decodeF_no_fuel : ∀ f : Nat,
    (∀ e0 bs, e0 ≠ DErr.outOfFuel → 2 * bs.length + 1 ≤ f →
      decodeF e0 f bs ≠ .error .outOfFuel)
    ∧ (∀ e0 bs, e0 ≠ DErr.outOfFuel → 2 * bs.length + 2 ≤ f →
      decode_list_items e0 f bs ≠ .error .outOfFuel)
    ∧ (∀ e0 bs acc, e0 ≠ DErr.outOfFuel → 2 * bs.length + 2 ≤ f →
      decode_dict_items e0 f bs acc ≠ .error .outOfFuel) := by
  intro f
  induction f with
  | zero =>
    refine ⟨?_, ?_, ?_⟩
    · intro e0 bs _ hf; omega
    · intro e0 bs _ hf; omega
    · intro e0 bs acc _ hf; omega
  | succ f ih =>
    obtain ⟨ihD, ihL, ihK⟩ := ih
    refine ⟨?_, ?_, ?_⟩
    · intro e0 bs he hf
      cases bs with
      | nil => simp [decodeF, he]
      | cons b bs' =>
        rw [decodeF]
        split_ifs with h1 h2 h3 h4
        · exact decode_string_no_fuel
        · exact decode_integer_no_fuel
        · cases hl : decode_list_items e0 f bs' with
          | error er =>
            dsimp only
            intro hcon
            injection hcon with h'
            subst h'
            exact ihL e0 bs' he (by simp only [List.length_cons] at hf; omega) hl
          | ok p =>
            obtain ⟨vs, r⟩ := p
            simp
        · cases hd : decode_dict_items e0 f bs' [] with
          | error er =>
            dsimp only
            intro hcon
            injection hcon with h'
            subst h'
            exact ihK e0 bs' [] he (by simp only [List.length_cons] at hf; omega) hd
          | ok p =>
            obtain ⟨d, r⟩ := p
            simp
        · simp
    · intro e0 bs he hf
      cases bs with
      | nil => simp [decode_list_items]
      | cons b t =>
        rw [decode_list_items]
        split_ifs with hb
        · simp
        · cases hd : decodeF e0 f (b :: t) with
          | error er =>
            dsimp only
            intro hcon
            injection hcon with h'
            subst h'
            exact ihD e0 (b :: t) he
              (by simp only [List.length_cons] at hf ⊢; omega) hd
          | ok p =>
            obtain ⟨v, r⟩ := p
            dsimp only
            cases hl : decode_list_items e0 f r with
            | error er =>
              dsimp only
              intro hcon
              injection hcon with h'
              subst h'
              have hcons := (decodeF_consume f).1 e0 (b :: t) v r hd
              refine ihL e0 r he ?_ hl
              simp only [List.length_cons] at hf hcons
              omega
            | ok q =>
              obtain ⟨vs1, r2⟩ := q
              simp
    · intro e0 bs acc he hf
      cases bs with
      | nil => simp [decode_dict_items]
      | cons b t =>
        rw [decode_dict_items]
        split_ifs with hb
        · simp
        · cases hd : decodeF e0 f (b :: t) with
          | error er =>
            dsimp only
            intro hcon
            injection hcon with h'
            subst h'
            exact ihD e0 (b :: t) he
              (by simp only [List.length_cons] at hf ⊢; omega) hd
          | ok p =>
            obtain ⟨k, r1⟩ := p
            cases k with
            | str ks =>
              dsimp only
              cases hv : decodeF e0 f r1 with
              | error er =>
                dsimp only
                intro hcon
                injection hcon with h'
                subst h'
                have hcons := (decodeF_consume f).1 e0 (b :: t) (.str ks) r1 hd
                refine ihD e0 r1 he ?_ hv
                simp only [List.length_cons] at hf hcons
                omega
              | ok q =>
                obtain ⟨v1, r2⟩ := q
                dsimp only
                have c1 := (decodeF_consume f).1 e0 (b :: t) (.str ks) r1 hd
                have c2 := (decodeF_consume f).1 e0 r1 v1 r2 hv
                refine ihK e0 r2 (dictInsert ks v1 acc) he ?_
                simp only [List.length_cons] at hf c1 c2
                omega
            | int n => simp
            | list l => simp
            | dict dd => simp

/-! The decoder's result does not depend on the fuel, once the fuel
exceeds the stated bound: every sufficient fuel gives the value at the
canonical fuel used by `decodeB`. -/

theorem decodeF_canon : ∀ f : Nat,
    (∀ e0 bs, 2 * bs.length + 1 ≤ f →
      decodeF e0 f bs = decodeF e0 (2 * bs.length + 1) bs)
    ∧ (∀ e0 bs, 2 * bs.length + 2 ≤ f →
      decode_list_items e0 f bs = decode_list_items e0 (2 * bs.length + 2) bs)
    ∧ (∀ e0 bs acc, 2 * bs.length + 2 ≤ f →
      decode_dict_items e0 f bs acc = decode_dict_items e0 (2 * bs.length + 2) bs acc) := by
  intro f
  induction f using Nat.strong_induction_on with
  | _ f ih =>
  refine ⟨?_, ?_, ?_⟩
  · intro e0 bs hf
    obtain ⟨f', rfl⟩ : ∃ f', f = f' + 1 := ⟨f - 1, by omega⟩
    cases bs with
    | nil => simp [decodeF]
    | cons b bs' =>
      rw [decodeF, decodeF]
      split_ifs with h1 h2 h3 h4
      · rfl
      · rfl
      · have e1 : decode_list_items e0 f' bs'
            = decode_list_items e0 (2 * bs'.length + 2) bs' :=
          (ih f' (by omega)).2.1 e0 bs'
            (by simp only [List.length_cons] at hf; omega)
        have hfc : 2 * (b :: bs').length = 2 * bs'.length + 2 := by
          simp only [List.length_cons]; omega
        rw [e1, hfc]
      · have e1 : decode_dict_items e0 f' bs' []
            = decode_dict_items e0 (2 * bs'.length + 2) bs' [] :=
          (ih f' (by omega)).2.2 e0 bs' []
            (by simp only [List.length_cons] at hf; omega)
        have hfc : 2 * (b :: bs').length = 2 * bs'.length + 2 := by
          simp only [List.length_cons]; omega
        rw [e1, hfc]
      · rfl
  · intro e0 bs hf
    obtain ⟨f', rfl⟩ : ∃ f', f = f' + 1 := ⟨f - 1, by omega⟩
    cases bs with
    | nil => simp [decode_list_items]
    | cons b t =>
      rw [decode_list_items, decode_list_items]
      split_ifs with hb
      · rfl
      · have d1 : decodeF e0 f' (b :: t)
            = decodeF e0 (2 * (b :: t).length + 1) (b :: t) :=
          (ih f' (by omega)).1 e0 (b :: t)
            (by simp only [List.length_cons] at hf ⊢; omega)
        cases hx : decodeF e0 (2 * (b :: t).length + 1) (b :: t) with
        | error er => rw [d1, hx]
        | ok p =>
          obtain ⟨v, r⟩ := p
          rw [d1, hx]
          dsimp only
          have hcons : r.length < (b :: t).length :=
            (decodeF_consume (2 * (b :: t).length + 1)).1 e0 (b :: t) v r hx
          have l1 : decode_list_items e0 f' r
              = decode_list_items e0 (2 * r.length + 2) r :=
            (ih f' (by omega)).2.1 e0 r
              (by simp only [List.length_cons] at hf hcons; omega)
          have l2 : decode_list_items e0 (2 * (b :: t).length + 1) r
              = decode_list_items e0 (2 * r.length + 2) r :=
            (ih (2 * (b :: t).length + 1)
                (by simp only [List.length_cons] at hf ⊢; omega)).2.1 e0 r
              (by simp only [List.length_cons] at hcons ⊢; omega)
          rw [l1, l2]
  · intro e0 bs acc hf
    obtain ⟨f', rfl⟩ : ∃ f', f = f' + 1 := ⟨f - 1, by omega⟩
    cases bs with
    | nil => simp [decode_dict_items]
    | cons b t =>
      rw [decode_dict_items, decode_dict_items]
      split_ifs with hb
      · rfl
      · have d1 : decodeF e0 f' (b :: t)
            = decodeF e0 (2 * (b :: t).length + 1) (b :: t) :=
          (ih f' (by omega)).1 e0 (b :: t)
            (by simp only [List.length_cons] at hf ⊢; omega)
        cases hx : decodeF e0 (2 * (b :: t).length + 1) (b :: t) with
        | error er => rw [d1, hx]
        | ok p =>
          obtain ⟨k, r1⟩ := p
          rw [d1, hx]
          cases k with
          | str ks =>
            dsimp only
            have c1 : r1.length < (b :: t).length :=
              (decodeF_consume (2 * (b :: t).length + 1)).1 e0 (b :: t) (.str ks) r1 hx
            have v1 : decodeF e0 f' r1
                = decodeF e0 (2 * r1.length + 1) r1 :=
              (ih f' (by omega)).1 e0 r1
                (by simp only [List.length_cons] at hf c1; omega)
            have v2 : decodeF e0 (2 * (b :: t).length + 1) r1
                = decodeF e0 (2 * r1.length + 1) r1 :=
              (ih (2 * (b :: t).length + 1)
                  (by simp only [List.length_cons] at hf ⊢; omega)).1 e0 r1
                (by simp only [List.length_cons] at c1 ⊢; omega)
            cases hy : decodeF e0 (2 * r1.length + 1) r1 with
            | error er => rw [v1, v2, hy]
            | ok q =>
              obtain ⟨v, r2⟩ := q
              rw [v1, v2, hy]
              dsimp only
              have c2 : r2.length < r1.length :=
                (decodeF_consume (2 * r1.length + 1)).1 e0 r1 v r2 hy
              have k1 : decode_dict_items e0 f' r2 (dictInsert ks v acc)
                  = decode_dict_items e0 (2 * r2.length + 2) r2 (dictInsert ks v acc) :=
                (ih f' (by omega)).2.2 e0 r2 (dictInsert ks v acc)
                  (by simp only [List.length_cons] at hf c1 c2; omega)
              have k2 : decode_dict_items e0 (2 * (b :: t).length + 1) r2
                    (dictInsert ks v acc)
                  = decode_dict_items e0 (2 * r2.length + 2) r2 (dictInsert ks v acc) :=
                (ih (2 * (b :: t).length + 1)
                    (by simp only [List.length_cons] at hf ⊢; omega)).2.2 e0 r2
                  (dictInsert ks v acc)
                  (by simp only [List.length_cons] at c1 c2 ⊢; omega)
              rw [k1, k2]
          | int n => rfl
          | list l => rfl
          | dict dd => rfl

/-- Any fuel at least the canonical bound gives the canonical result. -/
theorem decodeF_eq_canon {e0 : DErr} {f : Nat} {bs : List Nat}
    (h : 2 * bs.length + 1 ≤ f) :
    decodeF e0 f bs = decodeF e0 (2 * bs.length + 1) bs :=
  (decodeF_canon f).1 e0 bs h

/-! On success the remainder is a contiguous suffix of the input. -/

theorem decode_string_suffix {bs : List Nat} {v : BValue} {r : List Nat}
    (h : decode_string bs = .ok (v, r)) : r.IsSuffix bs := by
  unfold decode_string at h
  rcases hsp : splitOnFirst 58 bs with _ | ⟨pre, post⟩ <;> simp only [hsp] at h
  · simp at h
  · rcases hL : pyIntParse pre with _ | L <;> simp only [hL] at h
    · simp at h
    · split_ifs at h with hlen
      simp only [Except.ok.injEq, Prod.mk.injEq] at h
      have hr : r = List.drop L.toNat post := h.2.symm
      obtain ⟨hbs, _⟩ := splitOnFirst_some 58 hsp
      subst hr
      subst hbs
      exact (List.drop_suffix _ _).trans
        ((List.suffix_cons 58 post).trans (List.suffix_append pre (58 :: post)))

theorem decode_integer_suffix {bs : List Nat} {v : BValue} {r : List Nat}
    (h : decode_integer bs = .ok (v, r)) : r.IsSuffix bs := by
  unfold decode_integer at h
  cases bs with
  | nil => simp at h
  | cons b rest =>
    rcases hsp : splitOnFirst 101 rest with _ | ⟨span, tail⟩ <;> simp only [hsp] at h
    · simp at h
    · rcases hn : pyIntParse span with _ | n <;> simp only [hn] at h
      · simp at h
      · simp only [Except.ok.injEq, Prod.mk.injEq] at h
        have hr : r = tail := h.2.symm
        obtain ⟨hbs, _⟩ := splitOnFirst_some 101 hsp
        subst hbs
        rw [hr]
        exact ((List.suffix_cons 101 tail).trans
          (List.suffix_append span (101 :: tail))).trans
          (List.suffix_cons b (span ++ 101 :: tail))

theorem decodeF_suffix : ∀ f : Nat,
    (∀ e0 bs v r, decodeF e0 f bs = .ok (v, r) → r.IsSuffix bs)
    ∧ (∀ e0 bs vs r, decode_list_items e0 f bs = .ok (vs, r) → r.IsSuffix bs)
    ∧ (∀ e0 bs acc d r, decode_dict_items e0 f bs acc = .ok (d, r) →
        r.IsSuffix bs) := by
  intro f
  induction f with
  | zero =>
    refine ⟨?_, ?_, ?_⟩
    · intro e0 bs v r h; simp [decodeF] at h
    · intro e0 bs vs r h; simp [decode_list_items] at h
    · intro e0 bs acc d r h; simp [decode_dict_items] at h
  | succ f ih =>
    obtain ⟨ihD, ihL, ihK⟩ := ih
    refine ⟨?_, ?_, ?_⟩
    · intro e0 bs v r h
      cases bs with
      | nil => simp [decodeF] at h
      | cons b bs' =>
        rw [decodeF] at h
        split_ifs at h with h1 h2 h3 h4
        · exact decode_string_suffix h
        · exact decode_integer_suffix h
        · cases hl : decode_list_items e0 f bs' with
          | error er => rw [hl] at h; simp at h
          | ok p =>
            obtain ⟨vs, r'⟩ := p
            rw [hl] at h
            dsimp only at h
            simp only [Except.ok.injEq, Prod.mk.injEq] at h
            obtain ⟨_, hr⟩ := h
            rw [← hr]
            exact (ihL e0 bs' vs r' hl).trans (List.suffix_cons b bs')
        · cases hd : decode_dict_items e0 f bs' [] with
          | error er => rw [hd] at h; simp at h
          | ok p =>
            obtain ⟨d, r'⟩ := p
            rw [hd] at h
            dsimp only at h
            simp only [Except.ok.injEq, Prod.mk.injEq] at h
            obtain ⟨_, hr⟩ := h
            rw [← hr]
            exact (ihK e0 bs' [] d r' hd).trans (List.suffix_cons b bs')
    · intro e0 bs vs r h
      cases bs with
      | nil => simp [decode_list_items] at h
      | cons b t =>
        rw [decode_list_items] at h
        split_ifs at h with hb
        · simp only [Except.ok.injEq, Prod.mk.injEq] at h
          obtain ⟨_, hr⟩ := h
          subst hr
          exact List.suffix_cons b t
        · cases hd : decodeF e0 f (b :: t) with
          | error er => rw [hd] at h; simp at h
          | ok p =>
            obtain ⟨v1, r1⟩ := p
            rw [hd] at h
            dsimp only at h
            cases hl : decode_list_items e0 f r1 with
            | error er => rw [hl] at h; simp at h
            | ok q =>
              obtain ⟨vs1, r2⟩ := q
              rw [hl] at h
              dsimp only at h
              simp only [Except.ok.injEq, Prod.mk.injEq] at h
              obtain ⟨_, hr⟩ := h
              rw [← hr]
              exact (ihL e0 r1 vs1 r2 hl).trans (ihD e0 (b :: t) v1 r1 hd)
    · intro e0 bs acc d r h
      cases bs with
      | nil => simp [decode_dict_items] at h
      | cons b t =>
        rw [decode_dict_items] at h
        split_ifs at h with hb
        · simp only [Except.ok.injEq, Prod.mk.injEq] at h
          obtain ⟨_, hr⟩ := h
          subst hr
          exact List.suffix_cons b t
        · cases hd : decodeF e0 f (b :: t) with
          | error er => rw [hd] at h; simp at h
          | ok p =>
            obtain ⟨k, r1⟩ := p
            rw [hd] at h
            cases k with
            | str ks =>
              dsimp only at h
              cases hv : decodeF e0 f r1 with
              | error er => rw [hv] at h; simp at h
              | ok q =>
                obtain ⟨v1, r2⟩ := q
                rw [hv] at h
                dsimp only at h
                exact ((ihK e0 r2 (dictInsert ks v1 acc) d r h).trans
                  (ihD e0 r1 v1 r2 hv)).trans (ihD e0 (b :: t) (.str ks) r1 hd)
            | int n => simp at h
            | list l => simp at h
            | dict dd => simp at h

/-! Induction principle for the nested value type. -/

theorem bvalue_induction (P : BValue → Prop)
    (hint : ∀ n, P (.int n))
    (hstr : ∀ s, P (.str s))
    (hlist : ∀ l, (∀ x ∈ l, P x) → P (.list l))
    (hdict : ∀ d, (∀ kv ∈ d, P kv.2) → P (.dict d)) :
    ∀ v, P v := fun v =>
  match v with
  | .int n => hint n
  | .str s => hstr s
  | .list l => hlist l (fun x hx => bvalue_induction P hint hstr hlist hdict x)
  | .dict d => hdict d (fun kv hkv => bvalue_induction P hint hstr hlist hdict kv.2)
termination_by v => sizeOf v
decreasing_by
  · have := List.sizeOf_lt_of_mem hx
    simp only [BValue.list.sizeOf_spec]
    omega
  · have h1 := List.sizeOf_lt_of_mem hkv
    have h2 : sizeOf kv.2 < sizeOf kv := by
      obtain ⟨k, v2⟩ := kv
      simp only [Prod.mk.sizeOf_spec]
      omega
    simp only [BValue.dict.sizeOf_spec]
    omega

/-! Unpacking the well-formedness predicate. -/

theorem wfL_mem {l : List BValue} (h : wfL l = true) {x : BValue} (hx : x ∈ l) :
    wfB x = true := by
  induction l with
  | nil => simp at hx
  | cons y ys ih =>
    rw [wfL] at h
    simp only [Bool.and_eq_true] at h
    rcases List.mem_cons.mp hx with rfl | hx
    · exact h.1
    · exact ih h.2 hx

theorem wfD_mem {d : List (List Nat × BValue)} (h : wfD d = true)
    {kv : List Nat × BValue} (hkv : kv ∈ d) : wfB kv.2 = true := by
  induction d with
  | nil => simp at hkv
  | cons y ys ih =>
    rw [wfD] at h
    simp only [Bool.and_eq_true] at h
    rcases List.mem_cons.mp hkv with rfl | hkv
    · exact h.1
    · exact ih h.2 hkv

theorem wfB_list_mem {l : List BValue} (h : wfB (.list l) = true) {x : BValue}
    (hx : x ∈ l) : wfB x = true := wfL_mem h hx

theorem wfB_dict_mem {d : List (List Nat × BValue)} (h : wfB (.dict d) = true)
    {kv : List Nat × BValue} (hkv : kv ∈ d) : wfB kv.2 = true := by
  rw [wfB] at h
  simp only [Bool.and_eq_true] at h
  exact wfD_mem h.2 hkv

theorem wfB_dict_nodup {d : List (List Nat × BValue)}
    (h : wfB (.dict d) = true) : (keysOf d).Nodup := by
  rw [wfB] at h
  simp only [Bool.and_eq_true, decide_eq_true_eq] at h
  exact h.1

/-! Heads of encodings. -/

theorem encodeB_cons (v : BValue) : ∃ b bs, encodeB v = b :: bs ∧ b ≠ 101 := by
  cases v with
  | int n =>
    refine ⟨105, intStr n ++ [101], ?_, by norm_num⟩
    rw [encodeB]
    simp
  | str s =>
    rcases hns : natStr s.length with _ | ⟨b, nbs⟩
    · exact absurd hns natStr_ne_nil
    · refine ⟨b, nbs ++ 58 :: s, ?_, ?_⟩
      · rw [encodeB]
        unfold encodeStr
        rw [hns]
        simp
      · have := natStr_head_digit hns
        unfold isAsciiDigit at this
        simp at this
        omega
  | list l =>
    refine ⟨108, encodeSeq l ++ [101], ?_, by norm_num⟩
    rw [encodeB]
    simp
  | dict d =>
    refine ⟨100, emitEntries (sortEntries (encodePairs d)) ++ [101], ?_, by norm_num⟩
    rw [encodeB]
    simp

theorem encodeB_ne_nil (v : BValue) : encodeB v ≠ [] := by
  obtain ⟨b, bs, h, _⟩ := encodeB_cons v
  simp [h]

/-! Dispatch lemmas: one unfolding step of `decodeF` for each leading
byte class. -/

theorem decodeF_dispatch_string {e0 : DErr} {f : Nat} {b : Nat} {bs : List Nat}
    (h : pyIsDigit b = true) :
    decodeF e0 (f + 1) (b :: bs) = decode_string (b :: bs) := by
  rw [decodeF]
  simp [h]

theorem decodeF_dispatch_int {e0 : DErr} {f : Nat} {bs : List Nat} :
    decodeF e0 (f + 1) (105 :: bs) = decode_integer (105 :: bs) := by
  rw [decodeF]
  norm_num [pyIsDigit, isAsciiDigit]

theorem decodeF_dispatch_list {e0 : DErr} {f : Nat} {bs : List Nat} :
    decodeF e0 (f + 1) (108 :: bs) =
      (match decode_list_items e0 f bs with
       | .ok (vs, r) => .ok (.list vs, r)
       | .error er => .error er) := by
  rw [decodeF]
  norm_num [pyIsDigit, isAsciiDigit]

theorem decodeF_dispatch_dict {e0 : DErr} {f : Nat} {bs : List Nat} :
    decodeF e0 (f + 1) (100 :: bs) =
      (match decode_dict_items e0 f bs [] with
       | .ok (d, r) => .ok (.dict d, r)
       | .error er => .error er) := by
  rw [decodeF]
  norm_num [pyIsDigit, isAsciiDigit]

/-! Round trip for byte strings, also used for dictionary keys. -/

theorem decode_string_encodeStr (s t : List Nat) :
    decode_string (encodeStr s ++ t) = .ok (.str s, t) := by
  unfold decode_string encodeStr
  have hsplit : splitOnFirst 58 ((natStr s.length ++ 58 :: s) ++ t)
      = some (natStr s.length, s ++ t) := by
    have : (natStr s.length ++ 58 :: s) ++ t = natStr s.length ++ 58 :: (s ++ t) := by
      simp
    rw [this]
    exact splitOnFirst_append 58 _ _ (natStr_not_mem (by omega))
  rw [hsplit]
  simp only [pyIntParse_natStr]
  have hlen : ¬((s ++ t).length : Int) < (s.length : Int) := by
    simp [List.length_append]
  simp only [hlen, if_false]
  have ht : ((s.length : Int)).toNat = s.length := by omega
  rw [ht, List.take_left, List.drop_left]

theorem decodeF_encodeStr {s t : List Nat} {e0 : DErr} {f : Nat}
    (hf : 1 ≤ f) :
    decodeF e0 f (encodeStr s ++ t) = .ok (.str s, t) := by
  obtain ⟨f', rfl⟩ : ∃ f', f = f' + 1 := ⟨f - 1, by omega⟩
  rcases hns : natStr s.length with _ | ⟨b, nbs⟩
  · exact absurd hns natStr_ne_nil
  · have hstream : encodeStr s ++ t = b :: (nbs ++ 58 :: (s ++ t)) := by
      unfold encodeStr
      rw [hns]
      simp
    have hdig : pyIsDigit b = true := by
      have := natStr_head_digit hns
      unfold pyIsDigit
      simp [this]
    rw [hstream, decodeF_dispatch_string hdig, ← hstream, decode_string_encodeStr]

theorem isAsciiDigit_ne_101 {b : Nat} (h : isAsciiDigit b = true) : b ≠ 101 := by
  unfold isAsciiDigit at h
  simp at h
  omega

theorem encodeStr_cons (s : List Nat) :
    ∃ b bs, encodeStr s = b :: bs ∧ isAsciiDigit b = true := by
  rcases hns : natStr s.length with _ | ⟨b, nbs⟩
  · exact absurd hns natStr_ne_nil
  · refine ⟨b, nbs ++ 58 :: s, ?_, natStr_head_digit hns⟩
    unfold encodeStr
    rw [hns]
    simp

theorem normEntries_eq_map (d : List (List Nat × BValue)) :
    normEntries d = d.map (fun kv => (kv.1, normalizeB kv.2)) := by
  induction d with
  | nil => rfl
  | cons kv rest ih => simp [normEntries, ih]

theorem lookupD_append {α : Type} (k : List Nat) (l₁ l₂ : List (List Nat × α)) :
    lookupD k (l₁ ++ l₂) =
      match lookupD k l₁ with
      | some v => some v
      | none => lookupD k l₂ := by
  induction l₁ with
  | nil => simp [lookupD]
  | cons kv rest ih =>
    by_cases hk : kv.1 = k
    · simp [lookupD, hk]
    · simp only [List.cons_append, lookupD, hk, if_false]
      exact ih

theorem foldl_dictInsert_map (g : List Nat × BValue → BValue) :
    ∀ (ps : List (List Nat × BValue)) (acc : List (List Nat × BValue)),
      (keysOf ps).Nodup → (∀ k ∈ keysOf ps, lookupD k acc = none) →
      ps.foldl (fun a p => dictInsert p.1 (g p) a) acc
        = acc ++ ps.map (fun p => (p.1, g p)) := by
  intro ps
  induction ps with
  | nil => intro acc _ _; simp
  | cons p ps' ih =>
    intro acc hnd hfresh
    have hk : lookupD p.1 acc = none := hfresh p.1 (by simp [keysOf])
    have hins : dictInsert p.1 (g p) acc = acc ++ [(p.1, g p)] := by
      unfold dictInsert
      rw [hk]
      simp
    simp only [List.foldl_cons, hins]
    rw [ih (acc ++ [(p.1, g p)])]
    · simp
    · unfold keysOf at hnd
      simp only [List.map_cons, List.nodup_cons] at hnd
      exact hnd.2
    · intro k hkmem
      rw [lookupD_append, hfresh k (by simp [keysOf]; exact Or.inr (by simpa [keysOf] using hkmem))]
      have hkp : ¬p.1 = k := by
        unfold keysOf at hnd hkmem
        simp only [List.map_cons, List.nodup_cons] at hnd
        intro hcon
        exact hnd.1 (by rw [hcon]; simpa [keysOf] using hkmem)
      simp [lookupD, hkp]

/-! Round trip: decoding the encoding of a well-formed value, with any
trailing bytes, succeeds and returns the normalized value and exactly the
trailing bytes. -/

theorem decode_list_items_encodeSeq :
    ∀ (l : List BValue),
      (∀ x ∈ l, wfB x = true ∧
        (∀ (t' : List Nat) (e0' : DErr) (f' : Nat),
          2 * (encodeB x ++ t').length + 1 ≤ f' →
          decodeF e0' f' (encodeB x ++ t') = .ok (normalizeB x, t'))) →
      ∀ (t : List Nat) (e0 : DErr) (g : Nat),
        2 * (encodeSeq l ++ 101 :: t).length + 2 ≤ g →
        decode_list_items e0 g (encodeSeq l ++ 101 :: t) = .ok (normSeq l, t) := by
  intro l
  induction l with
  | nil =>
    intro _ t e0 g hg
    obtain ⟨g', rfl⟩ : ∃ g', g = g' + 1 := ⟨g - 1, by omega⟩
    have hstream : encodeSeq ([] : List BValue) ++ 101 :: t = 101 :: t := by
      rw [encodeSeq]
      simp
    rw [hstream, decode_list_items]
    simp [normSeq]
  | cons x xs ih =>
    intro hall t e0 g hg
    obtain ⟨hwx, hrt⟩ := hall x (by simp)
    have hall' := fun y hy => hall y (List.mem_cons_of_mem x hy)
    obtain ⟨b, nbs, hb, hbe⟩ := encodeB_cons x
    have hstream : encodeSeq (x :: xs) ++ 101 :: t
        = b :: (nbs ++ (encodeSeq xs ++ 101 :: t)) := by
      rw [encodeSeq, hb]
      simp
    have hlen : (encodeSeq (x :: xs)).length
        = (encodeB x).length + (encodeSeq xs).length := by
      rw [encodeSeq]
      simp
    have hA : 1 ≤ (encodeB x).length := by rw [hb]; simp
    obtain ⟨g', rfl⟩ : ∃ g', g = g' + 1 := ⟨g - 1, by omega⟩
    rw [hstream, decode_list_items]
    split_ifs with h101
    · exact absurd h101 hbe
    · have hback : b :: (nbs ++ (encodeSeq xs ++ 101 :: t))
          = encodeB x ++ (encodeSeq xs ++ 101 :: t) := by
        rw [hb]
        simp
      rw [hback]
      rw [hrt (encodeSeq xs ++ 101 :: t) e0 g' (by
        simp only [List.length_append, List.length_cons] at hg ⊢
        omega)]
      dsimp only
      rw [ih hall' t e0 g' (by
        simp only [List.length_append, List.length_cons] at hg ⊢
        omega)]
      dsimp only
      rw [normSeq]

theorem decode_dict_items_emit :
    ∀ (ps : List (List Nat × BValue)),
      (∀ kv ∈ ps, wfB kv.2 = true ∧
        (∀ (t' : List Nat) (e0' : DErr) (f' : Nat),
          2 * (encodeB kv.2 ++ t').length + 1 ≤ f' →
          decodeF e0' f' (encodeB kv.2 ++ t') = .ok (normalizeB kv.2, t'))) →
      ∀ (t : List Nat) (e0 : DErr) (g : Nat) (acc : List (List Nat × BValue)),
        2 * (emitEntries (encodePairs ps) ++ 101 :: t).length + 2 ≤ g →
        decode_dict_items e0 g (emitEntries (encodePairs ps) ++ 101 :: t) acc
          = .ok (ps.foldl (fun a p => dictInsert p.1 (normalizeB p.2) a) acc, t) := by
  intro ps
  induction ps with
  | nil =>
    intro _ t e0 g acc hg
    obtain ⟨g', rfl⟩ : ∃ g', g = g' + 1 := ⟨g - 1, by omega⟩
    have hstream : emitEntries (encodePairs []) ++ 101 :: t = 101 :: t := by
      rw [encodePairs, emitEntries]
      simp
    rw [hstream, decode_dict_items]
    simp
  | cons kv ps' ih =>
    intro hall t e0 g acc hg
    obtain ⟨hwv, hrt⟩ := hall kv (by simp)
    have hall' := fun y hy => hall y (List.mem_cons_of_mem kv hy)
    obtain ⟨b, nbs, hb, hdig⟩ := encodeStr_cons kv.1
    have hemit : emitEntries (encodePairs (kv :: ps'))
        = encodeStr kv.1 ++ (encodeB kv.2 ++ emitEntries (encodePairs ps')) := by
      rw [encodePairs, emitEntries]
      simp
    have hstream : emitEntries (encodePairs (kv :: ps')) ++ 101 :: t
        = b :: (nbs ++ (encodeB kv.2 ++ (emitEntries (encodePairs ps') ++ 101 :: t))) := by
      rw [hemit, hb]
      simp
    have hE : 1 ≤ (encodeStr kv.1).length := by rw [hb]; simp
    have hV : 1 ≤ (encodeB kv.2).length := by
      obtain ⟨b2, bs2, hb2, _⟩ := encodeB_cons kv.2
      rw [hb2]
      simp
    have hlen : (emitEntries (encodePairs (kv :: ps'))).length
        = (encodeStr kv.1).length + (encodeB kv.2).length
          + (emitEntries (encodePairs ps')).length := by
      rw [hemit]
      simp [List.length_append]
      omega
    obtain ⟨g', rfl⟩ : ∃ g', g = g' + 1 := ⟨g - 1, by omega⟩
    rw [hstream, decode_dict_items]
    split_ifs with h101
    · exact absurd h101 (isAsciiDigit_ne_101 hdig)
    · have hback : b :: (nbs ++ (encodeB kv.2 ++ (emitEntries (encodePairs ps') ++ 101 :: t)))
          = encodeStr kv.1 ++ (encodeB kv.2 ++ (emitEntries (encodePairs ps') ++ 101 :: t)) := by
        rw [hb]
        simp
      rw [hback]
      rw [decodeF_encodeStr (by omega)]
      dsimp only
      rw [hrt (emitEntries (encodePairs ps') ++ 101 :: t) e0 g' (by
        simp only [List.length_append, List.length_cons] at hg ⊢
        omega)]
      dsimp only
      rw [ih hall' t e0 g' (dictInsert kv.1 (normalizeB kv.2) acc) (by
        simp only [List.length_append, List.length_cons] at hg ⊢
        omega)]
      rw [List.foldl_cons]

theorem decodeF_encodeB : ∀ v : BValue, wfB v = true →
    ∀ (t : List Nat) (e0 : DErr) (f : Nat),
      2 * (encodeB v ++ t).length + 1 ≤ f →
      decodeF e0 f (encodeB v ++ t) = .ok (normalizeB v, t) := by
  intro v
  induction v using bvalue_induction with
  | hint n =>
    intro _ t e0 f hf
    have hstream : encodeB (.int n) ++ t = 105 :: (intStr n ++ 101 :: t) := by
      rw [encodeB]
      simp
    obtain ⟨f', rfl⟩ : ∃ f', f = f' + 1 := ⟨f - 1, by omega⟩
    rw [hstream, decodeF_dispatch_int]
    unfold decode_integer
    have hsplit : splitOnFirst 101 (intStr n ++ 101 :: t) = some (intStr n, t) :=
      splitOnFirst_append 101 _ _ (intStr_not_mem (by omega))
    simp only [hsplit, pyIntParse_intStr]
    rw [normalizeB]
  | hstr s =>
    intro _ t e0 f hf
    have h1 : encodeB (.str s) = encodeStr s := by rw [encodeB]
    have h2 : normalizeB (.str s) = .str s := by rw [normalizeB]
    rw [h1, h2]
    exact decodeF_encodeStr (by omega)
  | hlist l ihl =>
    intro hw t e0 f hf
    have hstream : encodeB (.list l) ++ t = 108 :: (encodeSeq l ++ 101 :: t) := by
      rw [encodeB]
      simp
    obtain ⟨f', rfl⟩ : ∃ f', f = f' + 1 := ⟨f - 1, by omega⟩
    rw [hstream, decodeF_dispatch_list]
    have hfuel : 2 * (encodeSeq l ++ 101 :: t).length + 2 ≤ f' := by
      have := congrArg List.length hstream
      simp only [List.length_append, List.length_cons] at this hf ⊢
      omega
    rw [decode_list_items_encodeSeq l
      (fun x hx => ⟨wfB_list_mem hw hx,
        fun t' e0' f'' hf'' => ihl x hx (wfB_list_mem hw hx) t' e0' f'' hf''⟩)
      t e0 f' hfuel]
    dsimp only
    rw [normalizeB]
  | hdict d ihd =>
    intro hw t e0 f hf
    have hcomm : sortEntries (encodePairs d) = encodePairs (sortEntries d) := by
      rw [encodePairs_eq_map, sortEntries_map_comm, ← encodePairs_eq_map]
    have hstream : encodeB (.dict d) ++ t
        = 100 :: (emitEntries (encodePairs (sortEntries d)) ++ 101 :: t) := by
      rw [encodeB, hcomm]
      simp
    obtain ⟨f', rfl⟩ : ∃ f', f = f' + 1 := ⟨f - 1, by omega⟩
    rw [hstream, decodeF_dispatch_dict]
    have hfuel : 2 * (emitEntries (encodePairs (sortEntries d)) ++ 101 :: t).length + 2 ≤ f' := by
      have := congrArg List.length hstream
      simp only [List.length_append, List.length_cons] at this hf ⊢
      omega
    rw [decode_dict_items_emit (sortEntries d)
      (fun kv hkv => by
        have hmem : kv ∈ d := (sortEntries_perm d).mem_iff.mp hkv
        exact ⟨wfB_dict_mem hw hmem,
          fun t' e0' f'' hf'' => ihd kv hmem (wfB_dict_mem hw hmem) t' e0' f'' hf''⟩)
      t e0 f' [] hfuel]
    dsimp only
    have hnodup : (keysOf (sortEntries d)).Nodup := by
      have := wfB_dict_nodup hw
      exact ((sortEntries_perm d).map Prod.fst).nodup_iff.mpr this
    rw [foldl_dictInsert_map (fun p => normalizeB p.2) (sortEntries d) [] hnodup
      (fun k _ => rfl)]
    rw [normalizeB]
    have : (sortEntries d).map (fun p => (p.1, normalizeB p.2))
        = sortEntries (normEntries d) := by
      rw [normEntries_eq_map, sortEntries_map_comm]
    rw [List.nil_append, this]

/-! The dynamically typed encoder agrees with `encodeB` on the value
model: it never takes its failure branch there. -/

theorem encodeSeqP_toPyL {l : List BValue}
    (h : ∀ x ∈ l, encode_bencode (toPy x) = .ok (encodeB x)) :
    encodeSeqP (toPyL l) = .ok (encodeSeq l) := by
  induction l with
  | nil => rfl
  | cons v vs ih =>
    rw [toPyL, encodeSeqP, encodeSeq]
    rw [h v (by simp)]
    rw [ih (fun x hx => h x (by simp [hx]))]

theorem encodePairsP_toPyD {d : List (List Nat × BValue)}
    (h : ∀ kv ∈ d, encode_bencode (toPy kv.2) = .ok (encodeB kv.2)) :
    encodePairsP (toPyD d) = .ok (encodePairs d) := by
  induction d with
  | nil => rfl
  | cons kv rest ih =>
    rw [toPyD, encodePairsP, encodePairs]
    rw [h kv (by simp)]
    rw [ih (fun x hx => h x (by simp [hx]))]

theorem encode_bencode_toPy : ∀ v : BValue,
    encode_bencode (toPy v) = .ok (encodeB v) := by
  intro v
  induction v using bvalue_induction with
  | hint n => rfl
  | hstr s => rfl
  | hlist l ih =>
    rw [toPy, encode_bencode, encodeSeqP_toPyL ih, encodeB]
  | hdict d ih =>
    rw [toPy, encode_bencode, encodePairsP_toPyD ih, encodeB]

/-! Lookup lemmas for the association-list dictionaries. -/

theorem lookupD_of_nodup {d : List (List Nat × BValue)}
    (hnd : (keysOf d).Nodup) {k : List Nat} {v : BValue} (hmem : (k, v) ∈ d) :
    lookupD k d = some v := by
  induction d with
  | nil => simp at hmem
  | cons kv rest ih =>
    unfold keysOf at hnd
    simp only [List.map_cons, List.nodup_cons] at hnd
    rcases List.mem_cons.mp hmem with heq | hmem'
    · rw [← heq, lookupD]
      simp
    · have hne : ¬kv.1 = k := by
        intro hcon
        exact hnd.1 (by
          rw [hcon]
          exact List.mem_map.mpr ⟨(k, v), hmem', rfl⟩)
      rw [lookupD]
      simp only [hne, if_false]
      exact ih hnd.2 hmem'

theorem lookupD_mem {α : Type} {d : List (List Nat × α)} {k : List Nat} {w : α}
    (h : lookupD k d = some w) : (k, w) ∈ d := by
  induction d with
  | nil => simp [lookupD] at h
  | cons kv rest ih =>
    rw [lookupD] at h
    by_cases hk : kv.1 = k
    · simp only [hk, if_true, Option.some.injEq] at h
      have : kv = (k, w) := by
        obtain ⟨k1, v1⟩ := kv
        simp only at hk h
        rw [hk, h]
      rw [← this]
      exact List.mem_cons_self kv rest
    · simp only [hk, if_false] at h
      exact List.mem_cons_of_mem kv (ih h)

/-! Python equality with the normal form: a well-formed value compares
equal (in Python's `==` sense) to its normalization. -/

theorem pyBeqList_normSeq {l : List BValue}
    (h : ∀ x ∈ l, pyBeq x (normalizeB x) = true) :
    pyBeqList l (normSeq l) = true := by
  induction l with
  | nil => rfl
  | cons x xs ih =>
    rw [normSeq, pyBeqList]
    simp only [Bool.and_eq_true]
    exact ⟨h x (by simp), ih (fun y hy => h y (by simp [hy]))⟩

theorem pyBeqEntries_of_lookup {a b : List (List Nat × BValue)}
    (h : ∀ kv ∈ a, ∃ w, lookupD kv.1 b = some w ∧ pyBeq kv.2 w = true) :
    pyBeqEntries a b = true := by
  induction a with
  | nil => rfl
  | cons kv rest ih =>
    rw [pyBeqEntries]
    simp only [Bool.and_eq_true]
    obtain ⟨w, hw, hbeq⟩ := h kv (by simp)
    constructor
    · rw [hw]
      exact hbeq
    · exact ih (fun x hx => h x (by simp [hx]))

theorem pyBeq_normalizeB : ∀ v : BValue, wfB v = true →
    pyBeq v (normalizeB v) = true := by
  intro v
  induction v using bvalue_induction with
  | hint n => intro _; simp [normalizeB, pyBeq]
  | hstr s => intro _; simp [normalizeB, pyBeq]
  | hlist l ih =>
    intro hw
    rw [normalizeB, pyBeq]
    exact pyBeqList_normSeq (fun x hx => ih x hx (wfB_list_mem hw hx))
  | hdict d ih =>
    intro hw
    rw [normalizeB, pyBeq]
    simp only [Bool.and_eq_true, beq_iff_eq]
    constructor
    · rw [(sortEntries_perm (normEntries d)).length_eq, normEntries_eq_map]
      simp
    · refine pyBeqEntries_of_lookup (fun kv hkv => ?_)
      refine ⟨normalizeB kv.2, ?_, ih kv hkv (wfB_dict_mem hw hkv)⟩
      have hnd : (keysOf (sortEntries (normEntries d))).Nodup := by
        have h1 : keysOf (sortEntries (normEntries d)) = (sortEntries (normEntries d)).map Prod.fst := rfl
        have hperm : List.Perm ((sortEntries (normEntries d)).map Prod.fst)
            ((normEntries d).map Prod.fst) := (sortEntries_perm (normEntries d)).map Prod.fst
        have h2 : (normEntries d).map Prod.fst = keysOf d := by
          rw [normEntries_eq_map]
          unfold keysOf
          rw [List.map_map]
          rfl
        rw [h1]
        exact hperm.nodup_iff.mpr (by rw [h2]; exact wfB_dict_nodup hw)
      refine lookupD_of_nodup hnd ?_
      refine (sortEntries_perm (normEntries d)).mem_iff.mpr ?_
      rw [normEntries_eq_map]
      exact List.mem_map.mpr ⟨kv, hkv, rfl⟩

/-! Canonical encoding respects Python structural equality: two
well-formed, `==`-equal values encode to the same bytes. -/

/-- Strict byte order as a relation. -/
def bytesLtP (x y : List Nat) : Prop := bytesLt x y = true

instance : DecidableRel bytesLtP := fun x y => by unfold bytesLtP; infer_instance

instance : IsAntisymm (List Nat) bytesLtP := by
  constructor
  intro x y h1 h2
  unfold bytesLtP at *
  rw [bytesLt_asymm h1] at h2
  exact absurd h2 (by simp)

theorem keys_sorted {A : List (List Nat × BValue)} (h : List.Sorted keyLt A) :
    List.Sorted bytesLtP (keysOf A) := by
  unfold keysOf
  exact List.pairwise_map.mpr (h.imp (fun hpq => hpq))

theorem pyBeqEntries_lookup : ∀ {a b : List (List Nat × BValue)},
    pyBeqEntries a b = true →
    ∀ kv ∈ a, ∃ w, lookupD kv.1 b = some w ∧ pyBeq kv.2 w = true := by
  intro a
  induction a with
  | nil => intro b _ kv hkv; simp at hkv
  | cons p rest ih =>
    intro b h kv hkv
    rw [pyBeqEntries] at h
    simp only [Bool.and_eq_true] at h
    rcases List.mem_cons.mp hkv with rfl | hkv'
    · rcases hw : lookupD kv.1 b with _ | w
      · rw [hw] at h
        simp at h
      · rw [hw] at h
        exact ⟨w, rfl, h.1⟩
    · exact ih h.2 kv hkv'

theorem encodeSeq_congr : ∀ (l1 l2 : List BValue), pyBeqList l1 l2 = true →
    (∀ p ∈ l1, ∀ q ∈ l2, pyBeq p q = true → encodeB p = encodeB q) →
    encodeSeq l1 = encodeSeq l2 := by
  intro l1
  induction l1 with
  | nil =>
    intro l2 hbeq _
    cases l2 with
    | nil => rfl
    | cons q qs => simp [pyBeqList] at hbeq
  | cons p ps ih =>
    intro l2 hbeq H
    cases l2 with
    | nil => simp [pyBeqList] at hbeq
    | cons q qs =>
      rw [pyBeqList] at hbeq
      simp only [Bool.and_eq_true] at hbeq
      rw [encodeSeq, encodeSeq]
      rw [H p (by simp) q (by simp) hbeq.1]
      rw [ih qs hbeq.2 (fun x hx y hy hxy => H x (by simp [hx]) y (by simp [hy]) hxy)]

theorem emitEntries_congr : ∀ (A B : List (List Nat × BValue)),
    keysOf A = keysOf B →
    (∀ p ∈ A, ∀ q ∈ B, p.1 = q.1 → encodeB p.2 = encodeB q.2) →
    emitEntries (encodePairs A) = emitEntries (encodePairs B) := by
  intro A
  induction A with
  | nil =>
    intro B hk _
    cases B with
    | nil => rfl
    | cons q qs => simp [keysOf] at hk
  | cons p ps ih =>
    intro B hk H
    cases B with
    | nil => simp [keysOf] at hk
    | cons q qs =>
      unfold keysOf at hk
      simp only [List.map_cons, List.cons.injEq] at hk
      rw [encodePairs, encodePairs, emitEntries, emitEntries]
      rw [hk.1, H p (by simp) q (by simp) hk.1]
      rw [ih qs hk.2 (fun x hx y hy hxy => H x (by simp [hx]) y (by simp [hy]) hxy)]

theorem encodeB_congr : ∀ (n : Nat) (a b : BValue), sizeOf a ≤ n →
    wfB a = true → wfB b = true → pyBeq a b = true → encodeB a = encodeB b := by
  intro n
  induction n using Nat.strong_induction_on with
  | _ n ih =>
  intro a b hsz hwa hwb hbeq
  cases a with
  | int x =>
    cases b with
    | int y =>
      have : x = y := by simpa [pyBeq] using hbeq
      rw [this]
    | str y => simp [pyBeq] at hbeq
    | list y => simp [pyBeq] at hbeq
    | dict y => simp [pyBeq] at hbeq
  | str x =>
    cases b with
    | int y => simp [pyBeq] at hbeq
    | str y =>
      have : x = y := by simpa [pyBeq] using hbeq
      rw [this]
    | list y => simp [pyBeq] at hbeq
    | dict y => simp [pyBeq] at hbeq
  | list x =>
    cases b with
    | int y => simp [pyBeq] at hbeq
    | str y => simp [pyBeq] at hbeq
    | list y =>
      rw [pyBeq] at hbeq
      have hseq : encodeSeq x = encodeSeq y := by
        refine encodeSeq_congr x y hbeq (fun p hp q hq hpq => ?_)
        have hsp : sizeOf p < n := by
          have h1 := List.sizeOf_lt_of_mem hp
          have h2 : sizeOf (BValue.list x) ≤ n := hsz
          simp only [BValue.list.sizeOf_spec] at h2
          omega
        exact ih (sizeOf p) hsp p q (le_refl _)
          (wfB_list_mem hwa hp) (wfB_list_mem hwb hq) hpq
      rw [encodeB, encodeB, hseq]
    | dict y => simp [pyBeq] at hbeq
  | dict x =>
    cases b with
    | int y => simp [pyBeq] at hbeq
    | str y => simp [pyBeq] at hbeq
    | list y => simp [pyBeq] at hbeq
    | dict y =>
      rw [pyBeq] at hbeq
      simp only [Bool.and_eq_true, beq_iff_eq] at hbeq
      obtain ⟨hlen, hentries⟩ := hbeq
      have hlook := pyBeqEntries_lookup hentries
      have hnx : (keysOf x).Nodup := wfB_dict_nodup hwa
      have hny : (keysOf y).Nodup := wfB_dict_nodup hwb
      have hsub : keysOf x ⊆ keysOf y := by
        intro k hk
        obtain ⟨kv, hmem, hkeq⟩ := List.mem_map.mp hk
        obtain ⟨w, hw, _⟩ := hlook kv hmem
        have hmw := lookupD_mem hw
        exact List.mem_map.mpr ⟨(kv.1, w), hmw, hkeq⟩
      have hklen : (keysOf y).length ≤ (keysOf x).length := by
        unfold keysOf
        simp [hlen]
      have hkperm : (keysOf x).Perm (keysOf y) :=
        (List.subperm_of_subset hnx hsub).perm_of_length_le hklen
      have hsx : List.Sorted keyLt (sortEntries x) :=
        sorted_keyLt_of_nodup (sortEntries_sorted x)
          (((sortEntries_perm x).map Prod.fst).nodup_iff.mpr hnx)
      have hsy : List.Sorted keyLt (sortEntries y) :=
        sorted_keyLt_of_nodup (sortEntries_sorted y)
          (((sortEntries_perm y).map Prod.fst).nodup_iff.mpr hny)
      have hKA : keysOf (sortEntries x) = keysOf (sortEntries y) := by
        refine List.eq_of_perm_of_sorted ?_ (keys_sorted hsx) (keys_sorted hsy)
        exact ((sortEntries_perm x).map Prod.fst).trans
          (hkperm.trans ((sortEntries_perm y).map Prod.fst).symm)
      have hrel : ∀ p ∈ sortEntries x, ∀ q ∈ sortEntries y, p.1 = q.1 →
          pyBeq p.2 q.2 = true := by
        intro p hp q hq hpq
        have hpx : p ∈ x := (sortEntries_perm x).mem_iff.mp hp
        have hqy : q ∈ y := (sortEntries_perm y).mem_iff.mp hq
        obtain ⟨w, hw, hbeqw⟩ := hlook p hpx
        have hq2 : lookupD p.1 y = some q.2 := by
          rw [hpq]
          refine lookupD_of_nodup hny ?_
          have : (q.1, q.2) = q := rfl
          rw [this]
          exact hqy
        rw [hq2] at hw
        simp only [Option.some.injEq] at hw
        rw [← hw] at hbeqw
        exact hbeqw
      have hcx : sortEntries (encodePairs x) = encodePairs (sortEntries x) := by
        rw [encodePairs_eq_map, sortEntries_map_comm, ← encodePairs_eq_map]
      have hcy : sortEntries (encodePairs y) = encodePairs (sortEntries y) := by
        rw [encodePairs_eq_map, sortEntries_map_comm, ← encodePairs_eq_map]
      have hemit : emitEntries (encodePairs (sortEntries x))
          = emitEntries (encodePairs (sortEntries y)) := by
        refine emitEntries_congr _ _ hKA (fun p hp q hq hpq => ?_)
        have hpx : p ∈ x := (sortEntries_perm x).mem_iff.mp hp
        have hqy : q ∈ y := (sortEntries_perm y).mem_iff.mp hq
        have hsp : sizeOf p.2 < n := by
          have h1 := List.sizeOf_lt_of_mem hpx
          have h2 : sizeOf (BValue.dict x) ≤ n := hsz
          have h3 : sizeOf p.2 < sizeOf p := by
            obtain ⟨k1, v1⟩ := p
            simp only [Prod.mk.sizeOf_spec]
            omega
          simp only [BValue.dict.sizeOf_spec] at h2
          omega
        exact ih (sizeOf p.2) hsp p.2 q.2 (le_refl _)
          (wfB_dict_mem hwa hpx) (wfB_dict_mem hwb hqy) (hrel p hp q hq hpq)
      rw [encodeB, encodeB, hcx, hcy, hemit]

/-! Last-write-wins behavior of dictionary insertion. -/

theorem lookupD_map_replace {α : Type} (k : List Nat) (v : α) :
    ∀ d : List (List Nat × α),
      lookupD k (d.map (fun kv => if kv.1 = k then (k, v) else kv))
        = (lookupD k d).map (fun _ => v) := by
  intro d
  induction d with
  | nil => rfl
  | cons kv rest ih =>
    by_cases hk : kv.1 = k
    · simp [lookupD, hk]
    · simp only [List.map_cons, hk, if_false, lookupD]
      rw [ih]

theorem lookupD_map_replace_other {α : Type} {k k' : List Nat} (hne : k ≠ k')
    (v : α) : ∀ d : List (List Nat × α),
      lookupD k' (d.map (fun kv => if kv.1 = k then (k, v) else kv))
        = lookupD k' d := by
  intro d
  induction d with
  | nil => rfl
  | cons kv rest ih =>
    by_cases hk : kv.1 = k
    · have hk' : ¬k = k' := hne
      have hkv' : ¬kv.1 = k' := by rw [hk]; exact hk'
      simp only [List.map_cons, hk, if_true, lookupD, hk', if_false, hkv']
      exact ih
    · simp only [List.map_cons, hk, if_false, lookupD]
      by_cases hkv' : kv.1 = k'
      · simp [hkv']
      · simp only [hkv', if_false]
        exact ih

theorem lookupD_dictInsert_self {α : Type} (k : List Nat) (v : α)
    (d : List (List Nat × α)) : lookupD k (dictInsert k v d) = some v := by
  unfold dictInsert
  by_cases hs : (lookupD k d).isSome = true
  · rw [if_pos hs]
    rw [lookupD_map_replace]
    obtain ⟨w, hw⟩ := Option.isSome_iff_exists.mp hs
    rw [hw]
    rfl
  · rw [if_neg hs]
    rw [lookupD_append]
    have : lookupD k d = none := by
      rcases h : lookupD k d with _ | w
      · rfl
      · rw [h] at hs; simp at hs
    rw [this]
    simp [lookupD]

theorem lookupD_dictInsert_other {α : Type} {k k' : List Nat} (hne : k ≠ k')
    (v : α) (d : List (List Nat × α)) :
    lookupD k' (dictInsert k v d) = lookupD k' d := by
  unfold dictInsert
  by_cases hs : (lookupD k d).isSome = true
  · rw [if_pos hs]
    exact lookupD_map_replace_other hne v d
  · rw [if_neg hs]
    rw [lookupD_append]
    rcases h : lookupD k' d with _ | w
    · have : ¬k = k' := hne
      simp [lookupD, this]
    · rfl

theorem foldl_insert_lookup :
    ∀ (ps : List (List Nat × BValue)) (acc : List (List Nat × BValue)) (k : List Nat),
      lookupD k (List.foldl (fun a p => dictInsert p.1 p.2 a) acc ps)
        = match (ps.filter (fun p => decide (p.1 = k))).getLast? with
          | some q => some q.2
          | none => lookupD k acc := by
  intro ps
  induction ps with
  | nil => intro acc k; rfl
  | cons p ps' ih =>
    intro acc k
    rw [List.foldl_cons, ih]
    rw [List.filter_cons]
    by_cases hp : p.1 = k
    · rw [if_pos (by simp [hp])]
      rcases hf : ps'.filter (fun p => decide (p.1 = k)) with _ | ⟨q, qs⟩
      · rw [hf]
        subst hp
        simp [lookupD_dictInsert_self]
      · rw [hf, List.getLast?_cons_cons]
        rw [List.getLast?_eq_getLast (q :: qs) (by simp)]
    · rw [if_neg (by simp [hp])]
      rcases hf : ps'.filter (fun p => decide (p.1 = k)) with _ | ⟨q, qs⟩
      · rw [hf]
        have hne : p.1 ≠ k := hp
        simp only [lookupD_dictInsert_other hne]
      · rw [hf]
        rw [List.getLast?_eq_getLast (q :: qs) (by simp)]

/-- Lookup in a dictionary built by inserting a pair sequence into an
empty dictionary: the value of the last pair carrying the key, if any. -/
theorem buildDict_lookup (ps : List (List Nat × BValue)) (k : List Nat) :
    lookupD k (buildDict ps)
      = ((ps.filter (fun p => decide (p.1 = k))).getLast?).map Prod.snd := by
  unfold buildDict
  rw [foldl_insert_lookup]
  rcases h : (ps.filter (fun p => decide (p.1 = k))).getLast? with _ | q
  · rw [h]
    rfl
  · rw [h]
    rfl

/-! Digest lengths. -/

theorem beBytes_length : ∀ (k n : Nat), (beBytes k n).length = k := by
  intro k
  induction k with
  | zero => intro n; rfl
  | succ k ih =>
    intro n
    rw [beBytes]
    simp [ih]

theorem stBytes_length (st : Nat × Nat × Nat × Nat × Nat) :
    (stBytes st).length = 20 := by
  unfold stBytes
  simp [beBytes_length]

theorem sha1Bytes_length (msg : List Nat) : (sha1Bytes msg).length = 20 := by
  unfold sha1Bytes
  exact stBytes_length _

theorem hexOfBytes_length : ∀ l : List Nat, (hexOfBytes l).length = 2 * l.length := by
  intro l
  induction l with
  | nil => rfl
  | cons b bs ih =>
    rw [hexOfBytes]
    simp [ih]
    omega

/-- Modelled from the spec: the integer-body grammar claimed for the span
between `i` and `e` — an optional single minus sign followed by one or
more base-10 digits and nothing else. -/
def specIntSpan (s : List Nat) : Bool :=
  match s with
  | 45 :: ds => !ds.isEmpty && ds.all isAsciiDigit
  | ds => !ds.isEmpty && ds.all isAsciiDigit

/-! Characterizations of the two leaf decoders on dispatched inputs,
uniform in the empty-input error parameter (so that they cover the
decoders of both source files). -/

theorem decodeF_int_ok_iff (e0 : DErr) (rest : List Nat) (out : BValue × List Nat) :
    decodeF e0 (2 * (105 :: rest).length + 1) (105 :: rest) = .ok out ↔
      ∃ span n tail, out = (BValue.int n, tail) ∧ rest = span ++ 101 :: tail ∧
        101 ∉ span ∧ pyIntParse span = some n := by
  rw [decodeF_dispatch_int]
  constructor
  · intro h
    unfold decode_integer at h
    rcases hsp : splitOnFirst 101 rest with _ | ⟨span, tail⟩ <;> simp only [hsp] at h
    · simp at h
    · rcases hn : pyIntParse span with _ | n <;> simp only [hn] at h
      · simp at h
      · obtain ⟨hbs, hnot⟩ := splitOnFirst_some 101 hsp
        simp only [Except.ok.injEq] at h
        exact ⟨span, n, tail, h.symm, hbs, hnot, hn⟩
  · rintro ⟨span, n, tail, rfl, rfl, hnot, hn⟩
    unfold decode_integer
    dsimp only
    rw [splitOnFirst_append 101 span tail hnot]
    simp only [hn]

theorem decodeF_string_ok_iff (e0 : DErr) {b : Nat} (rest : List Nat)
    (out : BValue × List Nat) (hb : isAsciiDigit b = true) :
    decodeF e0 (2 * (b :: rest).length + 1) (b :: rest) = .ok out ↔
      ∃ pre L post, b :: rest = pre ++ 58 :: post ∧ 58 ∉ pre ∧
        pyIntParse pre = some L ∧ ¬((post.length : Int) < L) ∧
        out = (BValue.str (post.take L.toNat), post.drop L.toNat) := by
  rw [decodeF_dispatch_string (by unfold pyIsDigit; simp [hb])]
  constructor
  · intro h
    unfold decode_string at h
    rcases hsp : splitOnFirst 58 (b :: rest) with _ | ⟨pre, post⟩ <;> simp only [hsp] at h
    · simp at h
    · rcases hL : pyIntParse pre with _ | L <;> simp only [hL] at h
      · simp at h
      · split_ifs at h with hlen
        obtain ⟨hbs, hnot⟩ := splitOnFirst_some 58 hsp
        simp only [Except.ok.injEq] at h
        exact ⟨pre, L, post, hbs, hnot, hL, hlen, h.symm⟩
  · rintro ⟨pre, L, post, heq, hnot, hL, hlen, rfl⟩
    unfold decode_string
    rw [heq, splitOnFirst_append 58 pre post hnot]
    simp only [hL]
    rw [if_neg hlen]

/-! Claims. -/

/-- C1: for every BValue `v` constructible within the model whose
dictionaries all have unique keys, decoding the encoding of `v` succeeds
and returns, together with an empty remainder, a value structurally equal
to `v` under Python's `==` (order-insensitive on dictionaries):
`decode_bencode(encode_bencode(v)) == (v, b"")`. -/
theorem claim_C1_roundtrip (v : BValue) (h : wfB v = true) :
    ∃ bs w, encode_bencode (toPy v) = .ok bs ∧
      decode_bencode (.bytes bs) = .ok (w, []) ∧ pyBeq v w = true := by
  refine ⟨encodeB v, normalizeB v, encode_bencode_toPy v, ?_, pyBeq_normalizeB v h⟩
  show decodeB (encodeB v) = .ok (normalizeB v, [])
  unfold decodeB
  have h2 := decodeF_encodeB v h [] .emptyInput
    (2 * (encodeB v ++ []).length + 1) (le_refl _)
  simpa using h2

/-- Witness for C1 at a dictionary built with its keys out of order. -/
theorem claim_C1_roundtrip_witness :
    wfB (.dict [([98], .int 1), ([97], .int 2)]) = true ∧
    (∃ bs w, encode_bencode (toPy (.dict [([98], .int 1), ([97], .int 2)])) = .ok bs ∧
      decode_bencode (.bytes bs) = .ok (w, []) ∧
      pyBeq (.dict [([98], .int 1), ([97], .int 2)]) w = true) :=
  ⟨by decide, claim_C1_roundtrip _ (by decide)⟩

/-- C2: `encode_bencode` emits a dictionary's entries sorted ascending by
the raw bytes of the keys (the emitted sequence is exactly
`sortEntries`, which is sorted under `keyLe`), so two dictionaries built
by inserting the same key/value pairs in different orders (association
lists that are permutations of one another, with unique keys) produce
byte-identical encodings. -/
theorem claim_C2_sorted_encoding (d₁ d₂ : List (List Nat × BValue))
    (hperm : List.Perm d₁ d₂) (hnd : (keysOf d₁).Nodup) :
    encodeB (.dict d₁) = 100 :: emitEntries (encodePairs (sortEntries d₁)) ++ [101] ∧
    List.Sorted keyLe (sortEntries d₁) ∧
    encodeB (.dict d₁) = encodeB (.dict d₂) := by
  refine ⟨encodeB_dict_eq_sorted d₁, sortEntries_sorted d₁, ?_⟩
  rw [encodeB, encodeB]
  have hc1 : sortEntries (encodePairs d₁) = encodePairs (sortEntries d₁) := by
    rw [encodePairs_eq_map, sortEntries_map_comm, ← encodePairs_eq_map]
  have hc2 : sortEntries (encodePairs d₂) = encodePairs (sortEntries d₂) := by
    rw [encodePairs_eq_map, sortEntries_map_comm, ← encodePairs_eq_map]
  rw [hc1, hc2, sortEntries_eq_of_perm hperm hnd]

/-- Witness for C2: the same two pairs inserted in both orders. -/
theorem claim_C2_sorted_encoding_witness :
    encodeB (.dict [([98], .int 1), ([97], .int 2)])
      = encodeB (.dict [([97], .int 2), ([98], .int 1)]) :=
  (claim_C2_sorted_encoding _ _ (List.Perm.swap _ _ _) (by decide)).2.2

/-- C3 counterexample: `calculate_info_hash` does not return a 20-byte
digest — it returns `hexdigest()`, the 40-character lowercase hexadecimal
rendering of the digest.  At the concrete input `BValue.int 0` the result
has length 40, not 20. -/
theorem claim_C3_counterexample :
    (calculate_info_hash (.int 0)).length = 40 ∧
    ¬(calculate_info_hash (.int 0)).length = 20 := by
  constructor
  · rfl
  · intro hcon
    rw [show (calculate_info_hash (.int 0)).length = 40 from rfl] at hcon
    omega

/-- C3 as amended: `calculate_info_hash` returns the 40-character
hexadecimal rendering of the 20-byte SHA-1 digest of the canonical
encoding; it is pure and deterministic, and any two structurally equal
well-formed values yield identical digests. -/
theorem claim_C3_infohash (a b : BValue) (hwa : wfB a = true)
    (hwb : wfB b = true) (hbeq : pyBeq a b = true) :
    calculate_info_hash a = calculate_info_hash b ∧
    (calculate_info_hash a).length = 40 := by
  constructor
  · unfold calculate_info_hash
    rw [encodeB_congr (sizeOf a) a b (le_refl _) hwa hwb hbeq]
  · unfold calculate_info_hash
    rw [hexOfBytes_length, sha1Bytes_length]

/-- Witness for C3 at two `==`-equal dictionaries built in different
orders. -/
theorem claim_C3_infohash_witness :
    wfB (.dict [([98], .int 1), ([97], .int 2)]) = true ∧
    wfB (.dict [([97], .int 2), ([98], .int 1)]) = true ∧
    pyBeq (.dict [([98], .int 1), ([97], .int 2)])
      (.dict [([97], .int 2), ([98], .int 1)]) = true ∧
    calculate_info_hash (.dict [([98], .int 1), ([97], .int 2)])
      = calculate_info_hash (.dict [([97], .int 2), ([98], .int 1)]) ∧
    (calculate_info_hash (.dict [([98], .int 1), ([97], .int 2)])).length = 40 := by
  have h := claim_C3_infohash (.dict [([98], .int 1), ([97], .int 2)])
    (.dict [([97], .int 2), ([98], .int 1)]) (by decide) (by decide) (by decide)
  exact ⟨by decide, by decide, by decide, h.1, h.2⟩

/-- C4 counterexample: the input `i+3e` begins with `'i'`, its span
`"+3"` is not an optional minus sign followed by digits (43 is `'+'`),
yet the decoder succeeds with the integer 3 instead of raising an
error — Python's `int()` accepts a leading plus. -/
theorem claim_C4_counterexample :
    decodeB [105, 43, 51, 101] = .ok (.int 3, []) ∧
    specIntSpan [43, 51] = false :=
  ⟨rfl, rfl⟩

/-- C4 as amended: for every byte input beginning with `'i'` (for the
decoders of both files), decoding succeeds exactly when there is a
terminating `'e'` and the span before the first `'e'` parses under
Python's `int()` rules — optional ASCII whitespace at both ends, an
optional single `'+'` or `'-'` sign, then base-10 digits with single
underscores permitted between digits; the decoder errors on a missing
terminator or an unparseable span. -/
theorem claim_C4_integer_decode (rest : List Nat) (out : BValue × List Nat) :
    (decodeB (105 :: rest) = .ok out ↔
      ∃ span n tail, out = (BValue.int n, tail) ∧ rest = span ++ 101 :: tail ∧
        101 ∉ span ∧ pyIntParse span = some n) ∧
    (mainDecodeB (105 :: rest) = .ok out ↔
      ∃ span n tail, out = (BValue.int n, tail) ∧ rest = span ++ 101 :: tail ∧
        101 ∉ span ∧ pyIntParse span = some n) :=
  ⟨decodeF_int_ok_iff .emptyInput rest out, decodeF_int_ok_iff .indexError rest out⟩

/-- C5 counterexample: the input `"2 :ab"` begins with an ASCII digit and
its length prefix `"2 "` (bytes 50, 32) is not a digit run — it contains
a space — yet the decoder succeeds with the byte string `"ab"` instead of
raising an error, because Python's `int()` strips whitespace. -/
theorem claim_C5_counterexample :
    decodeB [50, 32, 58, 97, 98] = .ok (.str [97, 98], []) ∧
    isAsciiDigit 32 = false :=
  ⟨rfl, rfl⟩

/-- C5 as amended: for every byte input beginning with an ASCII digit
(for the decoders of both files), decoding succeeds exactly when the
prefix before the first colon anywhere in the input parses under
Python's `int()` rules to a length `L` not exceeding the bytes remaining
after the colon, in which case the value is the `L`-byte slice after the
colon and the remainder is everything after that slice; in particular
`"4:spam"` yields `spam` with empty remainder and the truncated `"4:spa"`
fails with the length-mismatch error (see the witness). -/
theorem claim_C5_string_decode (b : Nat) (rest : List Nat)
    (out : BValue × List Nat) (hb : isAsciiDigit b = true) :
    (decodeB (b :: rest) = .ok out ↔
      ∃ pre L post, b :: rest = pre ++ 58 :: post ∧ 58 ∉ pre ∧
        pyIntParse pre = some L ∧ ¬((post.length : Int) < L) ∧
        out = (BValue.str (post.take L.toNat), post.drop L.toNat)) ∧
    (mainDecodeB (b :: rest) = .ok out ↔
      ∃ pre L post, b :: rest = pre ++ 58 :: post ∧ 58 ∉ pre ∧
        pyIntParse pre = some L ∧ ¬((post.length : Int) < L) ∧
        out = (BValue.str (post.take L.toNat), post.drop L.toNat)) :=
  ⟨decodeF_string_ok_iff .emptyInput rest out hb,
   decodeF_string_ok_iff .indexError rest out hb⟩

/-- Witness for C5: `"4:spam"` decodes to `spam` with empty remainder,
and `"4:spa"` fails with the length-mismatch error. -/
theorem claim_C5_string_decode_witness :
    isAsciiDigit 52 = true ∧
    decodeB [52, 58, 115, 112, 97, 109] = .ok (.str [115, 112, 97, 109], []) ∧
    decodeB [52, 58, 115, 112, 97] = .error .lengthMismatch := by
  refine ⟨rfl, ?_, rfl⟩
  exact ((claim_C5_string_decode 52 [58, 115, 112, 97, 109]
      (.str [115, 112, 97, 109], []) rfl).1).mpr
    ⟨[52], 4, [115, 112, 97, 109], rfl, by decide, rfl, by decide, rfl⟩

/-- C6: `encode_bencode` is total and non-failing on every constructible
BencodeValue: for any value built from the four variants it returns the
canonical byte sequence, and the `ValueError` branch for unencodable
types is never taken. -/
theorem claim_C6_encode_total (v : BValue) :
    encode_bencode (toPy v) = .ok (encodeB v) :=
  encode_bencode_toPy v

/-- C7: when a decoded dictionary stream contains the same key more than
once, the decoder does not reject the input; it builds the dictionary by
repeated insertion, so the key is mapped to the (normalized) value paired
with its final occurrence in the byte stream. -/
theorem claim_C7_last_write_wins (ps : List (List Nat × BValue))
    (h : ∀ p ∈ ps, wfB p.2 = true) (k : List Nat) :
    decodeB (100 :: (emitEntries (encodePairs ps) ++ [101]))
      = .ok (.dict (buildDict (ps.map (fun p => (p.1, normalizeB p.2)))), []) ∧
    lookupD k (buildDict (ps.map (fun p => (p.1, normalizeB p.2))))
      = ((ps.filter (fun p => decide (p.1 = k))).getLast?).map
          (fun p => normalizeB p.2) := by
  constructor
  · unfold decodeB
    rw [decodeF_dispatch_dict]
    have hstream : emitEntries (encodePairs ps) ++ [101]
        = emitEntries (encodePairs ps) ++ 101 :: [] := rfl
    rw [hstream]
    rw [decode_dict_items_emit ps
      (fun kv hkv => ⟨h kv hkv,
        fun t' e0' f' hf' => decodeF_encodeB kv.2 (h kv hkv) t' e0' f' hf'⟩)
      [] .emptyInput (2 * (100 :: (emitEntries (encodePairs ps) ++ [101])).length) []
      (by simp only [List.length_append, List.length_cons]; omega)]
    have hfold : List.foldl (fun a p => dictInsert p.1 (normalizeB p.2) a) [] ps
        = buildDict (ps.map (fun p => (p.1, normalizeB p.2))) := by
      unfold buildDict
      rw [List.foldl_map]
    rw [hfold]
  · rw [buildDict_lookup]
    rw [List.filter_map, List.getLast?_map, Option.map_map]
    rfl

/-- Witness for C7: the stream `d1:ai1e1:ai2ee` carries the key `"a"`
twice; decoding succeeds and maps the key to the second value. -/
theorem claim_C7_last_write_wins_witness :
    decodeB (100 :: (emitEntries (encodePairs [([97], .int 1), ([97], .int 2)]) ++ [101]))
      = .ok (.dict [([97], .int 2)], []) ∧
    lookupD [97] (buildDict ([([97], BValue.int 1), ([97], BValue.int 2)].map
        (fun p => (p.1, normalizeB p.2))))
      = some (.int 2) := by
  have h := claim_C7_last_write_wins [([97], .int 1), ([97], .int 2)]
    (by decide) [97]
  exact ⟨h.1, h.2⟩

/-- C8 counterexample: `src/main.py`'s decoder on the empty byte buffer
does not fail with the EmptyInput error — it crashes with an uncaught
`IndexError` from subscripting the empty buffer. -/
theorem claim_C8_counterexample :
    main_decode_bencode (.bytes []) = .error .indexError ∧
    DErr.indexError ≠ DErr.emptyInput :=
  ⟨rfl, by decide⟩

/-- C8 as amended: on a zero-length byte buffer `src/script.py`'s decoder
fails with the distinguishable empty-input error and returns no partially
built value, while `src/main.py`'s decoder raises an uncaught
`IndexError` instead. -/
theorem claim_C8_empty_input :
    decode_bencode (.bytes []) = .error .emptyInput ∧
    main_decode_bencode (.bytes []) = .error .indexError :=
  ⟨rfl, rfl⟩

/-- C9: whenever the decoder succeeds on a byte input, the returned
remainder is a contiguous suffix of the input — some prefix (the consumed
bytes) concatenated with the remainder reproduces the input exactly. -/
theorem claim_C9_remainder_suffix (bs : List Nat) (v : BValue) (r : List Nat)
    (h : decode_bencode (.bytes bs) = .ok (v, r)) : r.IsSuffix bs := by
  have hb : decodeB bs = .ok (v, r) := h
  exact (decodeF_suffix _).1 .emptyInput bs v r hb

/-- Witness for C9: decoding `i3exy` leaves the remainder `xy`, a suffix
of the input. -/
theorem claim_C9_remainder_suffix_witness :
    [120, 121].IsSuffix [105, 51, 101, 120, 121] :=
  claim_C9_remainder_suffix [105, 51, 101, 120, 121] (.int 3) [120, 121] rfl

/-- C10 counterexample: `src/script.py`'s `decode_bencode` applied to the
integer 0 raises the empty-input error (0 is falsy, and the falsiness
check precedes the integer check), rather than returning `(0, b"")`. -/
theorem claim_C10_counterexample :
    decode_bencode (.int 0) = .error .emptyInput :=
  rfl

/-- C10 as amended: an integer passed in place of a byte sequence is
echoed back with empty remainder by `src/main.py`'s decoder for every
integer, and by `src/script.py`'s decoder for every nonzero integer; at
0, `src/script.py` raises the empty-input error instead. -/
theorem claim_C10_integer_echo (n : Int) :
    (n ≠ 0 → decode_bencode (.int n) = .ok (.int n, [])) ∧
    main_decode_bencode (.int n) = .ok (.int n, []) := by
  constructor
  · intro hn
    unfold decode_bencode
    dsimp only
    rw [if_neg hn]
  · rfl

/-- Witness for C10 at the nonzero integer 5. -/
theorem claim_C10_integer_echo_witness :
    decode_bencode (.int 5) = .ok (.int 5, []) ∧
    main_decode_bencode (.int 5) = .ok (.int 5, []) :=
  ⟨(claim_C10_integer_echo 5).1 (by decide), (claim_C10_integer_echo 5).2⟩
